import Mathlib

/-!
# mapstruct: the structural mapping synthesizer of `gen.go`

A shallow embedding of the decision logic of `gen.go` (the compatibility
matcher `castDstField`, the resolution loops of `params`, `parseRelation`,
`searchUsedSrc`, `searchUsedField`, `isPtr`, `typeStrValue`, `getPackageAlias`,
and the helper functions and the element count of the template `mapperTmpl`)
together with theorems about it.

Modelling conventions.
* A Go `string` is a Lean `String`: the text is taken to be valid UTF-8 and is
  handled as its sequence of code points. `len` is the UTF-8 byte length.
* A Go `panic` is the `error` case of `Except String`.
* A Go `map[string]T` is an association list with pairwise distinct keys;
  `range` over a map visits its entries in an unspecified order, so the slice
  built by such a loop is any permutation of the stored values.
-/

namespace Mapstruct

/-! ## Go standard library functions used by the source -/

/-- Go `unicode.IsSpace`: the Unicode White_Space property. -/
def isSpace (c : Char) : Bool :=
  let n := c.toNat
  (0x09 ≤ n && n ≤ 0x0d) || n == 0x20 || n == 0x85 || n == 0xa0 || n == 0x1680 ||
  (0x2000 ≤ n && n ≤ 0x200a) || n == 0x2028 || n == 0x2029 || n == 0x202f ||
  n == 0x205f || n == 0x3000

/-- Removes the leading and the trailing characters that satisfy `p`. -/
def trimChars (p : Char → Bool) (l : List Char) : List Char :=
  ((l.dropWhile p).reverse.dropWhile p).reverse

/-- Go `strings.TrimSpace`. -/
def TrimSpace (s : String) : String :=
  String.mk (trimChars isSpace s.data)

/-- Go `strings.Trim(s, cutset)`: removes every leading and trailing code point
that occurs in `cutset`. -/
def Trim (s cutset : String) : String :=
  String.mk (trimChars (fun c => decide (c ∈ cutset.data)) s.data)

/-- Splits a character list at every occurrence of `sep`: the first piece and
the list of the following pieces. -/
def splitChars (sep : Char) : List Char → List Char × List (List Char)
  | [] => ([], [])
  | c :: cs =>
    let r := splitChars sep cs
    if c = sep then ([], r.1 :: r.2) else (c :: r.1, r.2)

/-- Go `strings.Split(s, sep)` for a one-character separator, the only way the
source calls it (`":"` and `"."`): the pieces of `s` between the occurrences of
`sep`, one more than there are occurrences. -/
def Split (s : String) (sep : Char) : List String :=
  let r := splitChars sep s.data
  (r.1 :: r.2).map String.mk

/-- Go `strings.Contains(s, substr)`. -/
def Contains (s substr : String) : Bool :=
  s.data.tails.any (fun t => substr.data.isPrefixOf t)

/-- Go `len(s)`: the number of bytes of the UTF-8 encoding. -/
def len (s : String) : Nat :=
  s.utf8ByteSize

/-- The word-separator test of Go `strings.Title`: ASCII letters, digits and
the underscore are not separators, every other ASCII character is; outside
ASCII a letter or digit is no separator and any other rune is one exactly when
it is white space, which, no letter or digit being white space, is the test
`unicode.IsSpace`. -/
def isSeparator (c : Char) : Bool :=
  if c.toNat < 0x80 then
    !(c.isAlphanum || c = '_')
  else
    isSpace c

/-- Go `unicode.ToTitle` on the ASCII range (upper case of `a`..`z`); code
points outside ASCII are left as they are, the matcher applies `Title` to the
ASCII type names of its case labels only. -/
def toTitle (c : Char) : Char :=
  if c.toNat < 0x80 then c.toUpper else c

/-- The character map of Go `strings.Title`, threading the previous rune. -/
def titleChars : Char → List Char → List Char
  | _, [] => []
  | prev, c :: cs =>
    (if isSeparator prev then toTitle c else c) :: titleChars c cs

/-- Go `strings.Title`: the first letter of every word in title case. -/
def Title (s : String) : String :=
  String.mk (titleChars ' ' s.data)

/-! ## Data model (`gen.go`, lines 232-263) -/

/-- Go `type field struct`. -/
structure field where
  Name : String
  Ptr : Bool
  TypeStr : String
deriving DecidableEq, Repr

/-- Go `type src struct`. -/
structure src where
  Alias : String
  ShortPath : String
  Fields : List field
deriving DecidableEq, Repr

/-- The anonymous struct of `mappingParams.FieldMappingRules`. -/
structure FieldMappingRule where
  DstFieldName : String
  SrcAlias : String
  SrcShortPath : String
  SrcFieldName : String
  SrcFieldPtr : Bool
  CastStr : String
  Casted : Bool
deriving DecidableEq, Repr

/-- Go zero value of a `FieldMappingRule` (`var fieldMappingRule struct{...}`). -/
def FieldMappingRule.zero : FieldMappingRule :=
  ⟨"", "", "", "", false, "", false⟩

/-! ## The compatibility matcher (`castDstField`, lines 486-595) -/

/-- Case labels `"byte", "uint", ..., "float64"` of `castDstField`. -/
def numericTypes : List String :=
  ["byte",
   "uint", "uint8", "uint16", "uint32", "uint64",
   "int", "int8", "int16", "int32", "int64",
   "float32", "float64"]

/-- Case labels `"*byte", "*uint", ..., "*float64"` of `castDstField`. -/
def ptrNumericTypes : List String :=
  ["*byte",
   "*uint", "*uint8", "*uint16", "*uint32", "*uint64",
   "*int", "*int8", "*int16", "*int32", "*int64",
   "*float32", "*float64"]

/-- Case labels `"[]bool", "[]string", "[]byte", ..., "[]float64"`. -/
def sliceTypes : List String :=
  ["[]bool", "[]string", "[]byte",
   "[]uint", "[]uint8", "[]uint16", "[]uint32", "[]uint64",
   "[]int", "[]int8", "[]int16", "[]int32", "[]int64",
   "[]float32", "[]float64"]

/-- Case labels `"[]*bool", "[]*string", "[]*byte", ..., "[]*float64"`. -/
def ptrSliceTypes : List String :=
  ["[]*bool", "[]*string", "[]*byte",
   "[]*uint", "[]*uint8", "[]*uint16", "[]*uint32", "[]*uint64",
   "[]*int", "[]*int8", "[]*int16", "[]*int32", "[]*int64",
   "[]*float32", "[]*float64"]

/-- Go `castDstField(srcAlias, srcField, dstField) (string, bool)`: the
expression that converts the source field to the destination field's type and
whether such a conversion is possible. -/
def castDstField (srcAlias : String) (srcField dstField : field) : String × Bool :=
  let dstType := dstField.TypeStr
  let srcType := srcField.TypeStr
  let srcRow := srcAlias ++ "." ++ srcField.Name
  if dstType = srcType then
    (srcRow, true)
  else if "*" ++ dstType = srcType then
    ("*" ++ srcRow, true)
  else if dstType = "bool" then
    if srcType = "*bool" then ("*" ++ srcRow, true) else (srcRow, false)
  else if dstType = "string" then
    if srcType = "*string" then ("*" ++ srcRow, true) else (srcRow, false)
  else if dstType = "*bool" then
    if srcType = "bool" then
      (Trim dstType "*" ++ "Ptr(" ++ srcRow ++ ")", true)
    else (srcRow, false)
  else if dstType = "*string" then
    if srcType = "string" then
      (Trim dstType "*" ++ "Ptr(" ++ srcRow ++ ")", true)
    else (srcRow, false)
  else if dstType ∈ numericTypes then
    if srcType ∈ numericTypes then
      (dstType ++ "(" ++ dstType ++ "(" ++ srcRow ++ "))", true)
    else if srcType ∈ ptrNumericTypes then
      (dstType ++ "(*" ++ srcRow ++ ")", true)
    else (srcRow, false)
  else if dstType ∈ ptrNumericTypes then
    if srcType ∈ numericTypes then
      (Trim dstType "*" ++ "Ptr(" ++ Trim dstType "*" ++ "(" ++ srcRow ++ "))", true)
    else if srcType ∈ ptrNumericTypes then
      (Trim dstType "*" ++ "(" ++ Trim dstType "*" ++ "(" ++ srcRow ++ "))", true)
    else (srcRow, false)
  else if dstType ∈ sliceTypes then
    if srcType ∈ sliceTypes then
      (Trim srcType "[]" ++ "ArrTo" ++ Title (Trim dstType "[]") ++ "Arr(" ++ srcRow ++ ")", true)
    else if srcType ∈ ptrSliceTypes then
      (Trim srcType "[]*" ++ "PtrArrTo" ++ Title (Trim dstType "[]") ++ "Arr(" ++ srcRow ++ ")",
        true)
    else (srcRow, false)
  else if dstType ∈ ptrSliceTypes then
    if srcType ∈ sliceTypes then
      (Trim srcType "[]" ++ "ArrTo" ++ Title (Trim dstType "[]*") ++ "PtrArr(" ++ srcRow ++ ")",
        true)
    else if srcType ∈ ptrSliceTypes then
      (Trim srcType "[]*" ++ "PtrArrTo" ++ Title (Trim dstType "[]*") ++ "PtrArr(" ++ srcRow ++ ")",
        true)
    else (srcRow, false)
  else
    (srcRow, false)

/-! ## Type descriptors from the parsed declaration (`isPtr`, `typeStrValue`) -/

/-- The nodes of Go `ast.Expr` that `isPtr` and `typeStrValue` distinguish.
`ArrayType` carries the source text of its length (`none` for a slice `[]T`),
`SelectorExpr` is `X.Sel`, and `Other` stands for every remaining node kind
(function, interface, struct, channel types, ...), the `default` case. -/
inductive astExpr where
  | ArrayType (Len : Option String) (Elt : astExpr)
  | MapType (Key Value : astExpr)
  | SelectorExpr (X : astExpr) (Sel : String)
  | StarExpr (X : astExpr)
  | Ident (Name : String)
  | Other
deriving DecidableEq, Repr

/-- Go `isPtr(expr ast.Expr) bool`. -/
def isPtr : astExpr → Bool
  | .ArrayType _ _ => true
  | .MapType _ _ => true
  | .SelectorExpr X _ => isPtr X
  | .StarExpr _ => true
  | .Ident _ => false
  | .Other => false

/-- Go `typeStrValue(node ast.Expr) string`. -/
def typeStrValue : astExpr → String
  | .ArrayType _ Elt => "[]" ++ typeStrValue Elt
  | .MapType Key Value => "map[" ++ typeStrValue Key ++ "]" ++ typeStrValue Value
  | .SelectorExpr X _ => typeStrValue X
  | .StarExpr X => "*" ++ typeStrValue X
  | .Ident Name => Name
  | .Other => ""

/-- Go `type fieldMeta struct`. -/
structure fieldMeta where
  name : String
  tag : String
  typeAST : astExpr
deriving DecidableEq, Repr

/-- Go `type structMeta struct`. -/
structure structMeta where
  name : String
  packagePath : String
  fields : List fieldMeta
deriving DecidableEq, Repr

/-- The field descriptor `params` appends for one parsed field (lines 284-292
for the destination, 303-311 for a source). -/
def fieldOf (f : fieldMeta) : field :=
  { Name := f.name, Ptr := isPtr f.typeAST, TypeStr := typeStrValue f.typeAST }

/-- The loop `for _, f := range dstMeta.fields` / `srcMeta.fields` of `params`. -/
def fieldsOf (sm : structMeta) : List field :=
  sm.fields.map fieldOf

/-! ## Relations (`parseRelation`, `searchUsedSrc`, `searchUsedField`) -/

/-- Go `parseRelation(relation) (dstAlias, dstField, srcCastRow)`; the panic on
a wrong number of pieces is the `error` case. -/
def parseRelation (relation : String) : Except String (String × String × String) :=
  match Split relation ':' with
  | [r0, r1] =>
    let dstRow := TrimSpace r0
    let srcCastRow := TrimSpace r1
    match Split dstRow '.' with
    | [a, b] => .ok (TrimSpace a, TrimSpace b, srcCastRow)
    | _ => .ok ("", dstRow, srcCastRow)
  | _ => .error ("relation " ++ relation ++ " incorrect format")

/-- The update of the running result in the second loop of `searchUsedField`. -/
def longerField (srcAlias castRow : String) (res : Option field) (srcField : field) :
    Option field :=
  if Contains castRow (srcAlias ++ "." ++ srcField.Name) then
    match res with
    | none => some srcField
    | some r => if len r.Name < len srcField.Name then some srcField else some r
  else res

/-- Go `searchUsedField(srcStruct *src, castRow string) *field`; `nil` is `none`. -/
def searchUsedField (srcStruct : src) (castRow : String) : Option field :=
  match srcStruct.Fields.find? (fun f => decide (castRow = srcStruct.Alias ++ "." ++ f.Name)) with
  | some f => some f
  | none => srcStruct.Fields.foldl (longerField srcStruct.Alias castRow) none

/-- Go `searchUsedSrc(srcList []src, srcCastRow string) *src`; `nil` is `none`. -/
def searchUsedSrc (srcList : List src) (srcCastRow : String) : Option src :=
  srcList.find? (fun s => Contains srcCastRow s.Alias)

/-! ## The rule map of `params` (lines 320-395) -/

/-- Go `map[string]FieldMappingRule`: an association list. -/
abbrev RuleMap := List (String × FieldMappingRule)

/-- Go `m[key]` with the comma-ok form. -/
def mapGet : RuleMap → String → Option FieldMappingRule
  | [], _ => none
  | (k, v) :: rest, key => if k = key then some v else mapGet rest key

/-- Go `m[key] = v`: replaces the value stored under `key` or adds the entry. -/
def mapSet : RuleMap → String → FieldMappingRule → RuleMap
  | [], key, v => [(key, v)]
  | (k, v0) :: rest, key, v =>
    if k = key then (k, v) :: rest else (k, v0) :: mapSet rest key v

/-- The values stored in the map, in the order of the association list. -/
def mapValues (m : RuleMap) : List FieldMappingRule :=
  m.map Prod.snd

/-- The rule built in the body of the automatic loop (lines 333-347). -/
def autoRule (srcStruct : src) (srcField dstField : field) : FieldMappingRule :=
  { DstFieldName := dstField.Name
    SrcAlias := srcStruct.Alias
    SrcShortPath := srcStruct.ShortPath
    SrcFieldName := srcField.Name
    SrcFieldPtr := srcField.Ptr
    CastStr := (castDstField srcStruct.Alias srcField dstField).1
    Casted := (castDstField srcStruct.Alias srcField dstField).2 }

/-- Body of `for _, srcField := range srcStruct.Fields` (lines 332-349). -/
def resolveField (dstField : field) (srcStruct : src) (m : RuleMap) (srcField : field) :
    RuleMap :=
  if dstField.Name = srcField.Name then
    mapSet m dstField.Name (autoRule srcStruct srcField dstField)
  else m

/-- Body of `for _, srcStruct := range srcList` (lines 330-351). -/
def resolveSrc (dstField : field) (m : RuleMap) (srcStruct : src) : RuleMap :=
  srcStruct.Fields.foldl (resolveField dstField srcStruct) m

/-- Body of `for _, dstField := range dst.Fields` (lines 329-352). -/
def resolveDst (srcList : List src) (m : RuleMap) (dstField : field) : RuleMap :=
  srcList.foldl (resolveSrc dstField) m

/-- The automatic resolution loop of `params` (lines 320-352), from the empty
map. -/
def resolveAuto (dst : src) (srcList : List src) : RuleMap :=
  dst.Fields.foldl (resolveDst srcList) []

/-- The rule built for one relation (lines 355-379), given the two results of
`parseRelation` that the loop uses. -/
def relationRule (srcList : List src) (dstFieldName srcCastRow : String) : FieldMappingRule :=
  let rule : FieldMappingRule :=
    { FieldMappingRule.zero with
      DstFieldName := dstFieldName, CastStr := srcCastRow, Casted := true }
  match searchUsedSrc srcList srcCastRow with
  | none => rule
  | some usedSrc =>
    match searchUsedField usedSrc srcCastRow with
    | none => rule
    | some usedField =>
      { rule with
        SrcAlias := usedSrc.Alias
        SrcShortPath := usedSrc.ShortPath
        SrcFieldName := usedField.Name
        SrcFieldPtr := usedField.Ptr }

/-- The loop `for _, relation := range mapperConfig.Relations` (lines 354-382);
a panic of `parseRelation` aborts it. -/
def applyRelations (srcList : List src) : RuleMap → List String → Except String RuleMap
  | m, [] => .ok m
  | m, relation :: rest =>
    match parseRelation relation with
    | .error e => .error e
    | .ok (_, dstFieldName, srcCastRow) =>
      applyRelations srcList (mapSet m dstFieldName (relationRule srcList dstFieldName srcCastRow))
        rest

/-- The map `fieldMappingRuleMap` of one mapper when the last loop starts
(line 393): automatic resolution followed by the relations. -/
def fieldMappingRuleMap (dst : src) (srcList : List src) (relations : List String) :
    Except String RuleMap :=
  applyRelations srcList (resolveAuto dst srcList) relations

/-- The slice `FieldMappingRules` of one mapper (lines 384-395) is built by
ranging over the map: `plan` is a possible result when the run does not panic
and `plan` lists the stored rules in some order. -/
def isFieldMappingRules (dst : src) (srcList : List src) (relations : List String)
    (plan : List FieldMappingRule) : Prop :=
  match fieldMappingRuleMap dst srcList relations with
  | .ok m => plan.Perm (mapValues m)
  | .error _ => False

instance (dst : src) (srcList : List src) (relations : List String)
    (plan : List FieldMappingRule) : Decidable (isFieldMappingRules dst srcList relations plan) := by
  unfold isFieldMappingRules
  split
  · infer_instance
  · infer_instance

/-- Well-formed rule map: distinct keys, and every rule is stored under its
own destination field name. -/
def RuleMapWF (m : RuleMap) : Prop :=
  (m.map Prod.fst).Nodup ∧ ∀ p ∈ m, p.2.DstFieldName = p.1

/-! ## Definitions that follow the wording of the specification -/

/-- Follows the specification's words ("the last source in configured order
declaring a field `X` compatible with the destination"): the last source of the
list with a field of the destination field's name that `castDstField` accepts. -/
def lastAcceptedSource (dstField : field) (srcList : List src) : Option src :=
  (srcList.filter (fun s =>
    s.Fields.any (fun f =>
      decide (f.Name = dstField.Name) && (castDstField s.Alias f dstField).2))).getLast?

/-! ## Sample inputs -/

/-- Destination `{ID int64; Tags []string}` under the alias `dst`. -/
def sampleDst : src :=
  ⟨"dst", "User", [⟨"ID", false, "int64"⟩, ⟨"Tags", true, "[]string"⟩]⟩

/-- Source `{Tags []string; ID int}` under the alias `src`. -/
def sampleSrc : src :=
  ⟨"src", "model.User", [⟨"Tags", true, "[]string"⟩, ⟨"ID", false, "int"⟩]⟩

/-- Destination `{Flag bool}` under the alias `dst`. -/
def flagDst : src :=
  ⟨"dst", "Out", [⟨"Flag", false, "bool"⟩]⟩

/-- Source `{Flag bool}` under the alias `first`. -/
def flagFirst : src :=
  ⟨"first", "A", [⟨"Flag", false, "bool"⟩]⟩

/-- Source `{Flag bool}` under the alias `second`. -/
def flagSecond : src :=
  ⟨"second", "B", [⟨"Flag", false, "bool"⟩]⟩

/-- Source `{Flag string}` under the alias `third`. -/
def flagThird : src :=
  ⟨"third", "C", [⟨"Flag", false, "string"⟩]⟩

/-- Destination `{Meta map[string]string}` under the alias `dst`. -/
def metaDst : src :=
  ⟨"dst", "Out", [⟨"Meta", true, "map[string]string"⟩]⟩

/-- The primitive type names: `bool`, `string` and the numeric family, in the
order of the case labels of the slice rows of `castDstField`. -/
def primitiveTypes : List String :=
  ["bool", "string", "byte",
   "uint", "uint8", "uint16", "uint32", "uint64",
   "int", "int8", "int16", "int32", "int64",
   "float32", "float64"]

/-- Follows the specification's words: the name of the element-wise slice
conversion helper for source element type `S` and destination element type
`D`, `srcPtr` and `dstPtr` telling whether the source and the destination
elements are pointers: `SArrTo<Title D>Arr`, `SArrTo<Title D>PtrArr`,
`SPtrArrTo<Title D>Arr`, `SPtrArrTo<Title D>PtrArr`. -/
def sliceHelperName (srcPtr dstPtr : Bool) (S D : String) : String :=
  S ++ (if srcPtr then "PtrArrTo" else "ArrTo") ++ Title D ++ (if dstPtr then "PtrArr" else "Arr")

/-! ## The generated helper functions and the list mapper (`mapperTmpl`) -/

/-- Go `typeToPtrList` (line 114). -/
def typeToPtrList : List String :=
  ["bool", "string", "byte", "int", "int64", "float32", "float64"]

/-- The element type of Go `typesCastList`. -/
structure typesCast where
  Name : String
  CastTypes : List String
deriving DecidableEq, Repr

/-- Go `typesCastList` (lines 115-143). -/
def typesCastList : List typesCast :=
  [⟨"bool", ["bool"]⟩,
   ⟨"string", ["string"]⟩,
   ⟨"int", ["int", "int64"]⟩,
   ⟨"int64", ["int", "int64"]⟩,
   ⟨"float32", ["float32", "float64"]⟩,
   ⟨"float64", ["float32", "float64"]⟩]

/-- The function names the template declares in `range .TypeToPtrList`
(line 47): `func <T>Ptr`. -/
def ptrHelperNames (l : List String) : List String :=
  l.map (fun t => t ++ "Ptr")

/-- The function names the template declares in `range .TypesCastList`, for
every entry and every one of its cast types (lines 54 and 61):
`func <Name>ArrTo<Title T>PtrArr` and `func <Name>PtrArrTo<Title T>Arr`. -/
def castHelperNames (l : List typesCast) : List String :=
  l.flatMap (fun tc =>
    tc.CastTypes.flatMap (fun c =>
      [tc.Name ++ "ArrTo" ++ Title c ++ "PtrArr", tc.Name ++ "PtrArrTo" ++ Title c ++ "Arr"]))

/-- All helper functions the template declares (lines 46-69). -/
def emittedHelperNames : List String :=
  ptrHelperNames typeToPtrList ++ castHelperNames typesCastList

/-- The element count of the generated list mapper (template lines 97-102):
`var count int`, then for every source in order
`if count == 0 || count > len(src) { count = len(src) }`; the argument lists
the lengths of the source slices. -/
def listMapperCount (lens : List Nat) : Nat :=
  lens.foldl (fun count l => if count = 0 ∨ count > l then l else count) 0

/-- Destination `{ID int64}` under the alias `dst`. -/
def idDst : src :=
  ⟨"dst", "Out", [⟨"ID", false, "int64"⟩]⟩

/-- Source `{ID int}` under the alias `a`. -/
def idIntSrc : src :=
  ⟨"a", "A", [⟨"ID", false, "int"⟩]⟩

/-- Source `{ID string}` under the alias `b`. -/
def idStringSrc : src :=
  ⟨"b", "B", [⟨"ID", false, "string"⟩]⟩

/-- The automatic rule of `ID` for `sampleDst` and `sampleSrc`. -/
def sampleIdRule : FieldMappingRule :=
  ⟨"ID", "src", "model.User", "ID", false, "int64(int64(src.ID))", true⟩

/-- The automatic rule of `Tags` for `sampleDst` and `sampleSrc`. -/
def sampleTagsRule : FieldMappingRule :=
  ⟨"Tags", "src", "model.User", "Tags", true, "src.Tags", true⟩

/-- Follows the specification's words: `res` is the longest match of `castRow`
among `fields`: `none` when no field `f` makes `alias.f.Name` a substring of
`castRow`; otherwise a field of the list whose `alias.Name` is a substring of
`castRow`, whose name is longer than that of every matching field before it
and at least as long as that of every matching field after it (the first of
the longest matches in declaration order). -/
def isLongestMatch (srcAlias castRow : String) (fields : List field) : Option field → Prop
  | none => ∀ g ∈ fields, Contains castRow (srcAlias ++ "." ++ g.Name) = false
  | some r =>
    ∃ p1 p2, fields = p1 ++ r :: p2 ∧ Contains castRow (srcAlias ++ "." ++ r.Name) = true ∧
      (∀ g ∈ p1, Contains castRow (srcAlias ++ "." ++ g.Name) = true → len g.Name < len r.Name) ∧
      (∀ g ∈ p2, Contains castRow (srcAlias ++ "." ++ g.Name) = true → len g.Name ≤ len r.Name)

/-- Follows the specification's words: the pair of type strings is outside the
table of the matcher: the types differ, the source is not the pointer to the
destination type, and the pair is none of (a) `*bool` from `bool` or `*string`
from `string`, (b) a numeric or pointer-to-numeric destination with a numeric
or pointer-to-numeric source, (c) a primitive-element slice destination with a
primitive-element slice source. -/
def outsideTable (dstType srcType : String) : Prop :=
  dstType ≠ srcType ∧ srcType ≠ "*" ++ dstType ∧
  ¬ (dstType = "*bool" ∧ srcType = "bool") ∧ ¬ (dstType = "*string" ∧ srcType = "string") ∧
  ¬ (dstType ∈ numericTypes ++ ptrNumericTypes ∧ srcType ∈ numericTypes ++ ptrNumericTypes) ∧
  ¬ (dstType ∈ sliceTypes ++ ptrSliceTypes ∧ srcType ∈ sliceTypes ++ ptrSliceTypes)

instance (dstType srcType : String) : Decidable (outsideTable dstType srcType) := by
  unfold outsideTable
  infer_instance

/-- The source struct of `Test_searchUsedField`: alias `src`, fields
`Fields` and `Field`, both pointer-typed `int`. -/
def testSrc : src :=
  ⟨"src", "", [⟨"Fields", true, "int"⟩, ⟨"Field", true, "int"⟩]⟩

/-! ## The import alias registry (`getPackageAlias`, lines 765-788) -/

/-- Source `{Name *string}` under the alias `data`. -/
def dataSrc : src :=
  ⟨"data", "model.Data", [⟨"Name", true, "*string"⟩]⟩

/-! ## Lemmas on the rule map -/

theorem mapGet_mapSet_self (m : RuleMap) (k : String) (v : FieldMappingRule) :
    mapGet (mapSet m k v) k = some v := by
  induction m with
  | nil => simp [mapSet, mapGet]
  | cons p rest ih =>
    obtain ⟨k0, v0⟩ := p
    by_cases h : k0 = k
    · simp [mapSet, mapGet, h]
    · simp [mapSet, mapGet, h, ih]

theorem mapGet_mapSet_of_ne (m : RuleMap) (k k' : String) (v : FieldMappingRule)
    (h : k' ≠ k) : mapGet (mapSet m k v) k' = mapGet m k' := by
  induction m with
  | nil => simp [mapSet, mapGet, Ne.symm h]
  | cons p rest ih =>
    obtain ⟨k0, v0⟩ := p
    by_cases h0 : k0 = k
    · subst h0
      simp [mapSet, mapGet, Ne.symm h]
    · by_cases h1 : k0 = k'
      · subst h1
        simp [mapSet, mapGet, h0]
      · simp [mapSet, mapGet, h0, h1, ih]

theorem mem_keys_mapSet (m : RuleMap) (k k' : String) (v : FieldMappingRule) :
    k' ∈ (mapSet m k v).map Prod.fst ↔ k' = k ∨ k' ∈ m.map Prod.fst := by
  induction m with
  | nil => simp [mapSet]
  | cons p rest ih =>
    obtain ⟨k0, v0⟩ := p
    by_cases h0 : k0 = k
    · subst h0
      simp [mapSet]
    · simp only [mapSet, h0, if_false, List.map_cons, List.mem_cons, ih]
      tauto

theorem mem_mapSet (m : RuleMap) (k : String) (v : FieldMappingRule)
    (p : String × FieldMappingRule) (hp : p ∈ mapSet m k v) : p = (k, v) ∨ p ∈ m := by
  induction m with
  | nil => simpa [mapSet] using hp
  | cons q rest ih =>
    obtain ⟨k0, v0⟩ := q
    by_cases h0 : k0 = k
    · subst h0
      simp only [mapSet, if_true, List.mem_cons] at hp
      rcases hp with hp | hp
      · exact Or.inl hp
      · exact Or.inr (List.mem_cons_of_mem _ hp)
    · simp only [mapSet, h0, if_false, List.mem_cons] at hp
      rcases hp with hp | hp
      · exact Or.inr (hp ▸ List.mem_cons_self _ _)
      · rcases ih hp with h | h
        · exact Or.inl h
        · exact Or.inr (List.mem_cons_of_mem _ h)

theorem RuleMapWF_nil : RuleMapWF [] := by
  simp [RuleMapWF]

theorem RuleMapWF_mapSet (m : RuleMap) (k : String) (v : FieldMappingRule)
    (hm : RuleMapWF m) (hv : v.DstFieldName = k) : RuleMapWF (mapSet m k v) := by
  refine ⟨?_, ?_⟩
  · have hnd := hm.1
    clear hm
    induction m with
    | nil => simp [mapSet]
    | cons p rest ih =>
      obtain ⟨k0, v0⟩ := p
      simp only [List.map_cons, List.nodup_cons] at hnd
      by_cases h0 : k0 = k
      · subst h0
        simpa [mapSet] using hnd
      · simp only [mapSet, h0, if_false, List.map_cons, List.nodup_cons, mem_keys_mapSet]
        exact ⟨by tauto, ih hnd.2⟩
  · intro p hp
    rcases mem_mapSet m k v p hp with h | h
    · subst h
      exact hv
    · exact hm.2 p h

theorem mapGet_eq_some_iff (m : RuleMap) (hm : RuleMapWF m) (X : String)
    (r : FieldMappingRule) :
    mapGet m X = some r ↔ r ∈ mapValues m ∧ r.DstFieldName = X := by
  induction m with
  | nil => simp [mapGet, mapValues]
  | cons p rest ih =>
    obtain ⟨k0, v0⟩ := p
    have hrest : RuleMapWF rest :=
      ⟨(List.nodup_cons.mp hm.1).2, fun q hq => hm.2 q (List.mem_cons_of_mem _ hq)⟩
    have hk0 : v0.DstFieldName = k0 := hm.2 (k0, v0) (List.mem_cons_self _ _)
    have hnot : k0 ∉ rest.map Prod.fst := (List.nodup_cons.mp hm.1).1
    have ih' := ih hrest
    by_cases h0 : k0 = X
    · subst h0
      simp only [mapGet, if_true, Option.some.injEq, mapValues, List.map_cons, List.mem_cons]
      constructor
      · intro h
        subst h
        exact ⟨Or.inl rfl, hk0⟩
      · rintro ⟨h | h, hX⟩
        · exact h.symm
        · exfalso
          apply hnot
          obtain ⟨q, hq, hq2⟩ := List.mem_map.mp h
          have := hrest.2 q hq
          exact List.mem_map.mpr ⟨q, hq, by rw [← this, hq2, hX]⟩
    · simp only [mapGet, h0, if_false, ih', mapValues, List.map_cons, List.mem_cons]
      constructor
      · rintro ⟨h, hX⟩
        exact ⟨Or.inr h, hX⟩
      · rintro ⟨h | h, hX⟩
        · exfalso
          apply h0
          rw [← hk0, ← h, hX]
        · exact ⟨h, hX⟩

/-! ## Lemmas on the automatic resolution loop -/

theorem RuleMapWF_resolveField (d : field) (s : src) (m : RuleMap) (f : field)
    (hm : RuleMapWF m) : RuleMapWF (resolveField d s m f) := by
  unfold resolveField
  split
  · exact RuleMapWF_mapSet m _ _ hm rfl
  · exact hm

theorem RuleMapWF_resolveSrc (d : field) (m : RuleMap) (s : src) (hm : RuleMapWF m) :
    RuleMapWF (resolveSrc d m s) := by
  unfold resolveSrc
  generalize s.Fields = fs
  induction fs generalizing m with
  | nil => exact hm
  | cons f rest ih => exact ih _ (RuleMapWF_resolveField d s m f hm)

theorem RuleMapWF_resolveDst (srcList : List src) (m : RuleMap) (d : field)
    (hm : RuleMapWF m) : RuleMapWF (resolveDst srcList m d) := by
  unfold resolveDst
  induction srcList generalizing m with
  | nil => exact hm
  | cons s rest ih => exact ih _ (RuleMapWF_resolveSrc d m s hm)

theorem RuleMapWF_resolveAuto (dst : src) (srcList : List src) :
    RuleMapWF (resolveAuto dst srcList) := by
  unfold resolveAuto
  generalize dst.Fields = ds
  have h0 := RuleMapWF_nil
  generalize ([] : RuleMap) = m at h0
  induction ds generalizing m with
  | nil => exact h0
  | cons d rest ih => exact ih _ (RuleMapWF_resolveDst srcList m d h0)

/-- A source field list without a field of the destination field's name leaves
the map as it is. -/
theorem foldl_resolveField_of_no_match (d : field) (s : src) (fs : List field) (m : RuleMap)
    (h : ∀ f ∈ fs, f.Name ≠ d.Name) : fs.foldl (resolveField d s) m = m := by
  induction fs generalizing m with
  | nil => rfl
  | cons f rest ih =>
    have hf : ¬ d.Name = f.Name := fun e => h f (List.mem_cons_self _ _) e.symm
    simp only [List.foldl_cons, resolveField, hf, if_false]
    exact ih m (fun g hg => h g (List.mem_cons_of_mem _ hg))

/-- The inner loop writes under the destination field's name only. -/
theorem mapGet_foldl_resolveField_of_ne (d : field) (s : src) (fs : List field) (m : RuleMap)
    (k : String) (hk : k ≠ d.Name) :
    mapGet (fs.foldl (resolveField d s) m) k = mapGet m k := by
  induction fs generalizing m with
  | nil => rfl
  | cons f rest ih =>
    rw [List.foldl_cons, ih]
    unfold resolveField
    split
    · exact mapGet_mapSet_of_ne m _ k _ hk
    · rfl

/-- After the inner loop the rule of the destination field is the one written
for the last source field of that name. -/
theorem mapGet_resolveSrc_last (d : field) (s : src) (m : RuleMap) (pre post : List field)
    (f : field) (hs : s.Fields = pre ++ f :: post) (hf : f.Name = d.Name)
    (hpost : ∀ g ∈ post, g.Name ≠ d.Name) :
    mapGet (resolveSrc d m s) d.Name = some (autoRule s f d) := by
  unfold resolveSrc
  rw [hs, List.foldl_append, List.foldl_cons, foldl_resolveField_of_no_match d s post _ hpost]
  simp only [resolveField, hf, if_true]
  exact mapGet_mapSet_self _ _ _

theorem resolveSrc_of_no_match (d : field) (s : src) (m : RuleMap)
    (h : ∀ f ∈ s.Fields, f.Name ≠ d.Name) : resolveSrc d m s = m :=
  foldl_resolveField_of_no_match d s s.Fields m h

theorem foldl_resolveSrc_of_no_match (d : field) (srcs : List src) (m : RuleMap)
    (h : ∀ s ∈ srcs, ∀ f ∈ s.Fields, f.Name ≠ d.Name) : srcs.foldl (resolveSrc d) m = m := by
  induction srcs generalizing m with
  | nil => rfl
  | cons s rest ih =>
    rw [List.foldl_cons, resolveSrc_of_no_match d s m (h s (List.mem_cons_self _ _))]
    exact ih m (fun t ht => h t (List.mem_cons_of_mem _ ht))

theorem mapGet_resolveDst_of_ne (srcList : List src) (m : RuleMap) (d : field) (k : String)
    (hk : k ≠ d.Name) : mapGet (resolveDst srcList m d) k = mapGet m k := by
  unfold resolveDst
  induction srcList generalizing m with
  | nil => rfl
  | cons s rest ih =>
    rw [List.foldl_cons, ih]
    exact mapGet_foldl_resolveField_of_ne d s s.Fields m k hk

theorem mapGet_foldl_resolveDst_of_ne (srcList : List src) (ds : List field) (m : RuleMap)
    (k : String) (hk : ∀ d ∈ ds, d.Name ≠ k) :
    mapGet (ds.foldl (resolveDst srcList) m) k = mapGet m k := by
  induction ds generalizing m with
  | nil => rfl
  | cons d rest ih =>
    rw [List.foldl_cons, ih _ (fun e he => hk e (List.mem_cons_of_mem _ he))]
    exact mapGet_resolveDst_of_ne srcList m d k (fun e => hk d (List.mem_cons_self _ _) e.symm)

/-- The rule of a destination field after the loop over the sources comes from
the last source that has a field of its name, and from the last such field. -/
theorem mapGet_resolveDst_last (d : field) (m : RuleMap) (before after : List src) (s : src)
    (pre post : List field) (f : field) (hs : s.Fields = pre ++ f :: post)
    (hf : f.Name = d.Name) (hpost : ∀ g ∈ post, g.Name ≠ d.Name)
    (hafter : ∀ t ∈ after, ∀ g ∈ t.Fields, g.Name ≠ d.Name) :
    mapGet (resolveDst (before ++ s :: after) m d) d.Name = some (autoRule s f d) := by
  unfold resolveDst
  rw [List.foldl_append, List.foldl_cons, foldl_resolveSrc_of_no_match d after _ hafter]
  exact mapGet_resolveSrc_last d s _ pre post f hs hf hpost

/-- The rule stored by the automatic loop under the name of a destination field
that is the last one of its name. -/
theorem mapGet_resolveAuto_last (dst : src) (dpre dpost : List field) (d : field)
    (hd : dst.Fields = dpre ++ d :: dpost) (hdpost : ∀ e ∈ dpost, e.Name ≠ d.Name)
    (before after : List src) (s : src) (pre post : List field) (f : field)
    (hs : s.Fields = pre ++ f :: post) (hf : f.Name = d.Name)
    (hpost : ∀ g ∈ post, g.Name ≠ d.Name)
    (hafter : ∀ t ∈ after, ∀ g ∈ t.Fields, g.Name ≠ d.Name) :
    mapGet (resolveAuto dst (before ++ s :: after)) d.Name = some (autoRule s f d) := by
  unfold resolveAuto
  rw [hd, List.foldl_append, List.foldl_cons, mapGet_foldl_resolveDst_of_ne _ dpost _ _ hdpost]
  exact mapGet_resolveDst_last d _ before after s pre post f hs hf hpost hafter

/-- In a list whose names are pairwise distinct every member is the last one of
its name. -/
theorem split_of_nodup_names (fs : List field) (f : field) (hf : f ∈ fs)
    (hnd : (fs.map field.Name).Nodup) :
    ∃ pre post, fs = pre ++ f :: post ∧ ∀ g ∈ post, g.Name ≠ f.Name := by
  obtain ⟨pre, post, h⟩ := List.append_of_mem hf
  refine ⟨pre, post, h, ?_⟩
  intro g hg hname
  rw [h, List.map_append, List.map_cons] at hnd
  have h2 := (List.nodup_cons.mp (List.nodup_append.mp hnd).2.1).1
  exact h2 (hname ▸ List.mem_map_of_mem _ hg)

/-- A destination field without a field of its name in any source gets no
entry from the automatic loop, nor does any name that is no destination
field's. -/
theorem mapGet_resolveAuto_none (dst : src) (srcList : List src) (X : String)
    (h : ∀ d ∈ dst.Fields, d.Name = X → ∀ s ∈ srcList, ∀ g ∈ s.Fields, g.Name ≠ X) :
    mapGet (resolveAuto dst srcList) X = none := by
  unfold resolveAuto
  generalize dst.Fields = ds at h
  have h0 : mapGet ([] : RuleMap) X = none := rfl
  generalize ([] : RuleMap) = m at h0
  induction ds generalizing m with
  | nil => exact h0
  | cons d rest ih =>
    rw [List.foldl_cons]
    apply ih (fun e he => h e (List.mem_cons_of_mem _ he))
    by_cases hd : d.Name = X
    · unfold resolveDst
      rw [foldl_resolveSrc_of_no_match d srcList m]
      · exact h0
      · intro s hs g hg
        rw [hd]
        exact h d (List.mem_cons_self _ _) hd s hs g hg
    · rw [mapGet_resolveDst_of_ne srcList m d X (fun e => hd e.symm)]
      exact h0

/-! ## Lemmas on `Split` and `parseRelation` -/

theorem length_splitChars (sep : Char) (l : List Char) :
    (splitChars sep l).2.length = l.count sep := by
  induction l with
  | nil => rfl
  | cons c cs ih =>
    by_cases h : c = sep
    · subst h
      simp [splitChars, ih]
    · have h' : ¬ (c == sep) = true := by simpa using h
      simp [splitChars, h, ih, List.count_cons, h']

theorem length_Split (s : String) (sep : Char) :
    (Split s sep).length = s.data.count sep + 1 := by
  simp [Split, length_splitChars]

theorem parseRelation_ok_of_split (relation r0 r1 : String)
    (h : Split relation ':' = [r0, r1]) :
    ∃ a d, parseRelation relation = .ok (a, d, TrimSpace r1) := by
  unfold parseRelation
  rw [h]
  dsimp only
  split
  · exact ⟨_, _, rfl⟩
  · exact ⟨_, _, rfl⟩

theorem parseRelation_ok_iff (relation : String) :
    (∃ t, parseRelation relation = .ok t) ↔ relation.data.count ':' = 1 := by
  have hlen := length_Split relation ':'
  constructor
  · rintro ⟨t, ht⟩
    unfold parseRelation at ht
    split at ht
    · rename_i r0 r1 hsp
      rw [hsp] at hlen
      simp at hlen
      omega
    · cases ht
  · intro hc
    rw [hc] at hlen
    match hsp : Split relation ':' with
    | [r0, r1] =>
      obtain ⟨a, d, h⟩ := parseRelation_ok_of_split relation r0 r1 hsp
      exact ⟨_, h⟩
    | [] => rw [hsp] at hlen; simp at hlen
    | [_] => rw [hsp] at hlen; simp at hlen
    | _ :: _ :: _ :: _ => rw [hsp] at hlen; simp at hlen

theorem parseRelation_error_iff (relation : String) :
    parseRelation relation = .error ("relation " ++ relation ++ " incorrect format") ↔
      relation.data.count ':' ≠ 1 := by
  rw [Ne, ← parseRelation_ok_iff]
  constructor
  · rintro h ⟨t, ht⟩
    rw [h] at ht
    cases ht
  · intro h
    unfold parseRelation
    split
    · rename_i r0 r1 hsp
      exfalso
      apply h
      obtain ⟨a, d, h'⟩ := parseRelation_ok_of_split relation r0 r1 hsp
      exact ⟨_, h'⟩
    · rfl

/-! ## Lemmas on the relation loop -/

theorem applyRelations_append (srcList : List src) (m : RuleMap) (l1 l2 : List String) :
    applyRelations srcList m (l1 ++ l2) =
      match applyRelations srcList m l1 with
      | .ok m1 => applyRelations srcList m1 l2
      | .error e => .error e := by
  induction l1 generalizing m with
  | nil => rfl
  | cons r rest ih =>
    simp only [List.cons_append, applyRelations]
    split
    · rfl
    · exact ih _

theorem applyRelations_ok (srcList : List src) (m : RuleMap) (rels : List String)
    (h : ∀ r ∈ rels, r.data.count ':' = 1) : ∃ m1, applyRelations srcList m rels = .ok m1 := by
  induction rels generalizing m with
  | nil => exact ⟨m, rfl⟩
  | cons r rest ih =>
    obtain ⟨t, ht⟩ := (parseRelation_ok_iff r).mpr (h r (List.mem_cons_self _ _))
    obtain ⟨a, d, e⟩ := t
    simp only [applyRelations, ht]
    exact ih _ (fun q hq => h q (List.mem_cons_of_mem _ hq))

theorem applyRelations_ok_iff (srcList : List src) (m : RuleMap) (rels : List String) :
    (∃ m1, applyRelations srcList m rels = .ok m1) ↔ ∀ r ∈ rels, r.data.count ':' = 1 := by
  refine ⟨?_, applyRelations_ok srcList m rels⟩
  induction rels generalizing m with
  | nil => simp
  | cons r rest ih =>
    rintro ⟨m1, h1⟩ q hq
    simp only [applyRelations] at h1
    split at h1
    · cases h1
    · rename_i a d e hp
      rcases List.mem_cons.mp hq with hq | hq
      · subst hq
        exact (parseRelation_ok_iff q).mp ⟨_, hp⟩
      · exact ih _ ⟨m1, h1⟩ q hq

theorem RuleMapWF_applyRelations (srcList : List src) (m m1 : RuleMap) (rels : List String)
    (hm : RuleMapWF m) (h : applyRelations srcList m rels = .ok m1) : RuleMapWF m1 := by
  induction rels generalizing m with
  | nil =>
    simp only [applyRelations] at h
    cases h
    exact hm
  | cons r rest ih =>
    simp only [applyRelations] at h
    split at h
    · cases h
    · rename_i a d e hp
      refine ih _ (RuleMapWF_mapSet m _ _ hm ?_) h
      unfold relationRule
      dsimp only
      split
      · rfl
      · split <;> rfl

/-- Relations that do not target `X` leave the rule of `X` as it is. -/
theorem mapGet_applyRelations_of_no_target (srcList : List src) (m m1 : RuleMap)
    (rels : List String) (X : String)
    (hno : ∀ r ∈ rels, ∀ a e, parseRelation r ≠ .ok (a, X, e))
    (h : applyRelations srcList m rels = .ok m1) : mapGet m1 X = mapGet m X := by
  induction rels generalizing m with
  | nil =>
    simp only [applyRelations] at h
    cases h
    rfl
  | cons r rest ih =>
    simp only [applyRelations] at h
    split at h
    · cases h
    · rename_i a d e hp
      rw [ih _ (fun q hq => hno q (List.mem_cons_of_mem _ hq)) h]
      apply mapGet_mapSet_of_ne
      intro hX
      subst hX
      exact hno r (List.mem_cons_self _ _) a e hp

/-- The rule of `X` after the relation loop is the one built from the last
relation that targets `X`. -/
theorem mapGet_applyRelations_last (srcList : List src) (m m1 : RuleMap)
    (pre post : List String) (rel a X e : String)
    (hrel : parseRelation rel = .ok (a, X, e))
    (hpost : ∀ r ∈ post, ∀ a1 e1, parseRelation r ≠ .ok (a1, X, e1))
    (h : applyRelations srcList m (pre ++ rel :: post) = .ok m1) :
    mapGet m1 X = some (relationRule srcList X e) := by
  rw [applyRelations_append] at h
  split at h
  · rename_i m0 h0
    simp only [applyRelations, hrel] at h
    rw [mapGet_applyRelations_of_no_target srcList _ m1 post X hpost h]
    exact mapGet_mapSet_self _ _ _
  · cases h

theorem relationRule_fields (srcList : List src) (X e : String) :
    (relationRule srcList X e).DstFieldName = X ∧ (relationRule srcList X e).CastStr = e ∧
      (relationRule srcList X e).Casted = true := by
  unfold relationRule
  dsimp only
  split
  · exact ⟨rfl, rfl, rfl⟩
  · split <;> exact ⟨rfl, rfl, rfl⟩

/-- Every possible `FieldMappingRules` slice holds the rule stored under `X`,
and no other rule of that destination field name. -/
theorem plan_rule_of_mapGet (dst : src) (srcList : List src) (relations : List String)
    (m : RuleMap) (hm : fieldMappingRuleMap dst srcList relations = .ok m) (X : String)
    (r : FieldMappingRule) (hr : mapGet m X = some r) (plan : List FieldMappingRule)
    (hplan : isFieldMappingRules dst srcList relations plan) :
    r ∈ plan ∧ ∀ q ∈ plan, q.DstFieldName = X → q = r := by
  unfold isFieldMappingRules at hplan
  rw [hm] at hplan
  have hperm : plan.Perm (mapValues m) := hplan
  have hwf : RuleMapWF m :=
    RuleMapWF_applyRelations srcList _ m relations (RuleMapWF_resolveAuto dst srcList) hm
  refine ⟨hperm.mem_iff.mpr ((mapGet_eq_some_iff m hwf X r).mp hr).1, ?_⟩
  intro q hq hX
  have h1 := (mapGet_eq_some_iff m hwf X q).mpr ⟨hperm.mem_iff.mp hq, hX⟩
  rw [hr] at h1
  exact (Option.some.inj h1).symm

/-- No possible `FieldMappingRules` slice holds a rule for a name without an
entry in the map. -/
theorem plan_no_rule_of_mapGet (dst : src) (srcList : List src) (relations : List String)
    (m : RuleMap) (hm : fieldMappingRuleMap dst srcList relations = .ok m) (X : String)
    (hr : mapGet m X = none) (plan : List FieldMappingRule)
    (hplan : isFieldMappingRules dst srcList relations plan) :
    ∀ q ∈ plan, q.DstFieldName ≠ X := by
  unfold isFieldMappingRules at hplan
  rw [hm] at hplan
  have hperm : plan.Perm (mapValues m) := hplan
  have hwf : RuleMapWF m :=
    RuleMapWF_applyRelations srcList _ m relations (RuleMapWF_resolveAuto dst srcList) hm
  intro q hq hX
  have h1 := (mapGet_eq_some_iff m hwf X q).mpr ⟨hperm.mem_iff.mp hq, hX⟩
  rw [hr] at h1
  cases h1

theorem isFieldMappingRules_mapValues (dst : src) (srcList : List src)
    (relations : List String) (m : RuleMap)
    (hm : fieldMappingRuleMap dst srcList relations = .ok m) :
    isFieldMappingRules dst srcList relations (mapValues m) := by
  unfold isFieldMappingRules
  simp only [hm]
  exact List.Perm.refl _

theorem castDstField_same_type (a : String) (sf df : field) (h : df.TypeStr = sf.TypeStr) :
    castDstField a sf df = (a ++ "." ++ sf.Name, true) := by
  simp [castDstField, h]

/-! ## Lemmas on the helper names of the slice conversions -/

theorem takeWhile_append_of_all {α : Type} (p : α → Bool) (xs : List α) (y : α) (ys : List α)
    (hx : ∀ x ∈ xs, p x = true) (hy : p y = false) :
    (xs ++ y :: ys).takeWhile p = xs ∧ (xs ++ y :: ys).dropWhile p = y :: ys := by
  induction xs with
  | nil => simp [List.takeWhile, List.dropWhile, hy]
  | cons x rest ih =>
    have hx1 := hx x (List.mem_cons_self _ _)
    have ih1 := ih (fun z hz => hx z (List.mem_cons_of_mem _ hz))
    simp [List.takeWhile, List.dropWhile, hx1, ih1]

theorem primitiveTypes_lower :
    ∀ S ∈ primitiveTypes, ∀ c ∈ S.data, (!c.isUpper) = true := by
  decide

theorem sliceHelper_tail_head :
    ∀ sp dp : Bool, ∀ D ∈ primitiveTypes,
      (((if sp then "PtrArrTo" else "ArrTo") ++ Title D ++
        (if dp then "PtrArr" else "Arr") : String).data.head?).map Char.isUpper = some true := by
  decide

theorem sliceHelper_tail_upper (sp dp : Bool) (D : String) (hD : D ∈ primitiveTypes) :
    ∃ c rest, ((if sp then "PtrArrTo" else "ArrTo") ++ Title D ++
      (if dp then "PtrArr" else "Arr") : String).data = c :: rest ∧ (!c.isUpper) = false := by
  have h := sliceHelper_tail_head sp dp D hD
  match hl : ((if sp then "PtrArrTo" else "ArrTo") ++ Title D ++
      (if dp then "PtrArr" else "Arr") : String).data with
  | [] =>
    rw [hl] at h
    simp at h
  | c :: rest =>
    rw [hl] at h
    simp only [List.head?_cons, Option.map_some', Option.some.injEq] at h
    exact ⟨c, rest, rfl, by simp [h]⟩

theorem sliceHelper_tail_injective :
    ∀ sp dp : Bool, ∀ D ∈ primitiveTypes, ∀ sp1 dp1 : Bool, ∀ D1 ∈ primitiveTypes,
      ((if sp then "PtrArrTo" else "ArrTo") ++ Title D ++ (if dp then "PtrArr" else "Arr") :
          String) =
        (if sp1 then "PtrArrTo" else "ArrTo") ++ Title D1 ++ (if dp1 then "PtrArr" else "Arr") →
      sp = sp1 ∧ dp = dp1 ∧ D = D1 := by
  decide

theorem sliceHelperName_data (sp dp : Bool) (S D : String) :
    (sliceHelperName sp dp S D).data =
      S.data ++ ((if sp then "PtrArrTo" else "ArrTo") ++ Title D ++
        (if dp then "PtrArr" else "Arr") : String).data := by
  simp [sliceHelperName, String.data_append, List.append_assoc]

theorem sliceHelperName_injective (sp dp sp1 dp1 : Bool) (S D S1 D1 : String)
    (hS : S ∈ primitiveTypes) (hD : D ∈ primitiveTypes) (hS1 : S1 ∈ primitiveTypes)
    (hD1 : D1 ∈ primitiveTypes)
    (h : sliceHelperName sp dp S D = sliceHelperName sp1 dp1 S1 D1) :
    sp = sp1 ∧ dp = dp1 ∧ S = S1 ∧ D = D1 := by
  have hd := congrArg String.data h
  rw [sliceHelperName_data, sliceHelperName_data] at hd
  obtain ⟨c, rest, hc, hcu⟩ := sliceHelper_tail_upper sp dp D hD
  obtain ⟨c1, rest1, hc1, hcu1⟩ := sliceHelper_tail_upper sp1 dp1 D1 hD1
  have hdc := hd
  rw [hc, hc1] at hd
  have e := takeWhile_append_of_all (fun c => !c.isUpper) S.data c rest
    (primitiveTypes_lower S hS) hcu
  have e1 := takeWhile_append_of_all (fun c => !c.isUpper) S1.data c1 rest1
    (primitiveTypes_lower S1 hS1) hcu1
  have hSdata : S.data = S1.data := by
    rw [← e.1, ← e1.1, hd]
  have htail : c :: rest = c1 :: rest1 := by
    rw [← e.2, ← e1.2, hd]
  have hSS : S = S1 := String.ext hSdata
  have ht : ((if sp then "PtrArrTo" else "ArrTo") ++ Title D ++
      (if dp then "PtrArr" else "Arr") : String) =
      (if sp1 then "PtrArrTo" else "ArrTo") ++ Title D1 ++ (if dp1 then "PtrArr" else "Arr") := by
    apply String.ext
    rw [hc, hc1, htail]
  obtain ⟨h1, h2, h3⟩ := sliceHelper_tail_injective sp dp D hD sp1 dp1 D1 hD1 ht
  exact ⟨h1, h2, hSS, h3⟩

/-! ## Lemmas on type strings -/

theorem primitiveTypes_cases :
    ∀ T ∈ primitiveTypes, T = "bool" ∨ T = "string" ∨ T ∈ numericTypes := by
  decide

theorem primitiveTypes_head :
    ∀ T ∈ primitiveTypes,
      T.data.head? ≠ some '[' ∧ T.data.head? ≠ some 'm' ∧ T.data.head? ≠ some '*' ∧
        T.data.head? ≠ none := by
  decide

/-- A type expression whose type string is a primitive type name is an
identifier, possibly package-qualified: `isPtr` is false for it. -/
theorem isPtr_of_typeStrValue_primitive (e : astExpr) (T : String) (hT : T ∈ primitiveTypes)
    (h : typeStrValue e = T) : isPtr e = false := by
  obtain ⟨h1, h2, h3, h4⟩ := primitiveTypes_head T hT
  induction e with
  | ArrayType len elt _ =>
    exfalso
    apply h1
    rw [← h]
    simp [typeStrValue, String.data_append]
  | MapType k v _ _ =>
    exfalso
    apply h2
    rw [← h]
    simp [typeStrValue, String.data_append]
  | SelectorExpr x sel ih => exact ih h
  | StarExpr x _ =>
    exfalso
    apply h3
    rw [← h]
    simp [typeStrValue, String.data_append]
  | Ident name => rfl
  | Other => rfl

theorem wrap_numeric_facts :
    ∀ T ∈ numericTypes,
      "*" ++ T ≠ T ∧ "*" ++ ("*" ++ T) ≠ T ∧ "*" ++ T ≠ "bool" ∧ "*" ++ T ≠ "string" ∧
      "*" ++ T ≠ "*bool" ∧ "*" ++ T ≠ "*string" ∧ "*" ++ T ∉ numericTypes ∧
      "*" ++ T ∈ ptrNumericTypes ∧ Trim ("*" ++ T) "*" = T := by
  decide

theorem castDstField_wrap_primitive (a n n1 T : String) (ps pd : Bool)
    (hT : T ∈ primitiveTypes) :
    castDstField a ⟨n, ps, T⟩ ⟨n1, pd, "*" ++ T⟩ =
      (if T ∈ numericTypes then T ++ "Ptr(" ++ T ++ "(" ++ (a ++ "." ++ n) ++ "))"
        else T ++ "Ptr(" ++ (a ++ "." ++ n) ++ ")", true) := by
  rcases primitiveTypes_cases T hT with h | h | h
  · subst h
    have h1 : Trim "*bool" "*" = "bool" := by decide
    simp [castDstField, numericTypes, h1]
  · subst h
    have h1 : Trim "*string" "*" = "string" := by decide
    simp [castDstField, numericTypes, h1]
  · obtain ⟨h1, h2, h3, h4, h5, h6, h7, h8, h9⟩ := wrap_numeric_facts T h
    simp only [castDstField, h1, h2, h3, h4, h5, h6, h7, h8, h9, h, if_true, if_false]

/-! ## Lemmas on the scalar rows of the matcher -/

theorem star_append_ne (T : String) : "*" ++ T ≠ T := by
  intro h
  have h1 := congrArg String.length h
  rw [String.length_append] at h1
  have h2 : ("*" : String).length = 1 := rfl
  omega

theorem numeric_facts :
    ∀ D ∈ numericTypes, ∀ S ∈ numericTypes, S ≠ D →
      D ≠ S ∧ "*" ++ D ≠ S ∧ D ≠ "bool" ∧ D ≠ "string" ∧ D ≠ "*bool" ∧ D ≠ "*string" := by
  decide

theorem ptr_numeric_facts :
    ∀ D ∈ numericTypes, ∀ S ∈ numericTypes, S ≠ D →
      "*" ++ D ≠ "*" ++ S ∧ "*" ++ ("*" ++ D) ≠ "*" ++ S ∧ "*" ++ D ≠ "bool" ∧
      "*" ++ D ≠ "string" ∧ "*" ++ D ≠ "*bool" ∧ "*" ++ D ≠ "*string" ∧
      "*" ++ D ∉ numericTypes ∧ "*" ++ D ∈ ptrNumericTypes ∧ "*" ++ S ∉ numericTypes ∧
      "*" ++ S ∈ ptrNumericTypes ∧ Trim ("*" ++ D) "*" = D := by
  decide

theorem star_append_inj (T U : String) (h : "*" ++ T = "*" ++ U) : T = U := by
  have hd := congrArg String.data h
  rw [String.data_append, String.data_append] at hd
  exact String.ext (List.append_cancel_left hd)

theorem star_head (T : String) : ("*" ++ T).data.head? = some '*' := by
  simp [String.data_append]

theorem labels_head :
    (∀ x ∈ numericTypes ++ sliceTypes ++ ptrSliceTypes ++ ["bool", "string"],
      x.data.head? ≠ some '*') ∧
    ptrNumericTypes = numericTypes.map (fun T => "*" ++ T) ∧
    (∀ x ∈ numericTypes, x ∈ primitiveTypes) ∧ "bool" ∈ primitiveTypes ∧
    "string" ∈ primitiveTypes := by
  decide

/-- Outside the primitive type names the matcher has no pointer-wrap row. -/
theorem castDstField_wrap_other (a n n1 U : String) (ps pd : Bool) (hU : U ∉ primitiveTypes) :
    castDstField a ⟨n, ps, U⟩ ⟨n1, pd, "*" ++ U⟩ = (a ++ "." ++ n, false) := by
  obtain ⟨hhead, hptr, hnum, hb, hs⟩ := labels_head
  have hne : ∀ x ∈ numericTypes ++ sliceTypes ++ ptrSliceTypes ++ ["bool", "string"],
      "*" ++ U ≠ x := by
    intro x hx e
    exact hhead x hx (e ▸ star_head U)
  have h1 : "*" ++ U ≠ U := star_append_ne U
  have h2 : "*" ++ ("*" ++ U) ≠ U := by
    intro e
    have e1 := congrArg String.length e
    rw [String.length_append, String.length_append] at e1
    have e2 : ("*" : String).length = 1 := rfl
    omega
  have h3 : "*" ++ U ≠ "bool" := hne _ (by decide)
  have h4 : "*" ++ U ≠ "string" := hne _ (by decide)
  have h5 : "*" ++ U ≠ "*bool" := fun e => hU (star_append_inj U "bool" e ▸ hb)
  have h6 : "*" ++ U ≠ "*string" := fun e => hU (star_append_inj U "string" e ▸ hs)
  have h7 : "*" ++ U ∉ numericTypes := fun hm =>
    hne _ (List.mem_append_left _ (List.mem_append_left _ (List.mem_append_left _ hm))) rfl
  have h8 : "*" ++ U ∉ ptrNumericTypes := by
    rw [hptr]
    intro hm
    obtain ⟨V, hV, e⟩ := List.mem_map.mp hm
    exact hU (star_append_inj V U e ▸ hnum V hV)
  have h9 : "*" ++ U ∉ sliceTypes := fun hm =>
    hne _ (List.mem_append_left _ (List.mem_append_left _ (List.mem_append_right _ hm))) rfl
  have h10 : "*" ++ U ∉ ptrSliceTypes := fun hm =>
    hne _ (List.mem_append_left _ (List.mem_append_right _ hm)) rfl
  simp only [castDstField, h1, h2, h3, h4, h5, h6, h7, h8, h9, h10, if_false]

/-! ## Lemmas on the slice rows of the matcher -/

theorem slice_labels :
    sliceTypes = primitiveTypes.map (fun S => "[]" ++ S) ∧
    ptrSliceTypes = primitiveTypes.map (fun S => "[]*" ++ S) := by
  decide

/-- Facts on a destination type that is one of the slice case labels. -/
theorem slice_dst_facts :
    ∀ D ∈ primitiveTypes,
      ("[]" ++ D ≠ "bool" ∧ "[]" ++ D ≠ "string" ∧ "[]" ++ D ≠ "*bool" ∧
        "[]" ++ D ≠ "*string" ∧ "[]" ++ D ∉ numericTypes ∧ "[]" ++ D ∉ ptrNumericTypes ∧
        "[]" ++ D ∈ sliceTypes ∧ Trim ("[]" ++ D) "[]" = D) ∧
      ("[]*" ++ D ≠ "bool" ∧ "[]*" ++ D ≠ "string" ∧ "[]*" ++ D ≠ "*bool" ∧
        "[]*" ++ D ≠ "*string" ∧ "[]*" ++ D ∉ numericTypes ∧ "[]*" ++ D ∉ ptrNumericTypes ∧
        "[]*" ++ D ∉ sliceTypes ∧ "[]*" ++ D ∈ ptrSliceTypes ∧ Trim ("[]*" ++ D) "[]*" = D) := by
  decide

/-- Facts on a pair of slice types. -/
theorem slice_pair_facts :
    ∀ D ∈ primitiveTypes, ∀ S ∈ primitiveTypes,
      (S ≠ D → "[]" ++ D ≠ "[]" ++ S) ∧ (S ≠ D → "[]*" ++ D ≠ "[]*" ++ S) ∧
      "[]" ++ D ≠ "[]*" ++ S ∧ "[]*" ++ D ≠ "[]" ++ S ∧
      "*" ++ ("[]" ++ D) ≠ "[]" ++ S ∧ "*" ++ ("[]" ++ D) ≠ "[]*" ++ S ∧
      "*" ++ ("[]*" ++ D) ≠ "[]" ++ S ∧ "*" ++ ("[]*" ++ D) ≠ "[]*" ++ S := by
  decide

theorem sliceHelperName_call (sp dp : Bool) (S D row : String) :
    sliceHelperName sp dp S D ++ "(" ++ row ++ ")" =
      S ++ (if sp then "PtrArrTo" else "ArrTo") ++ Title D ++
        (if dp then "PtrArr(" else "Arr(") ++ row ++ ")" := by
  apply String.ext
  cases dp <;> simp [sliceHelperName, String.data_append]

theorem castDstField_slice (a n n1 S D : String) (ps pd : Bool)
    (hS : S ∈ primitiveTypes) (hD : D ∈ primitiveTypes) :
    (S ≠ D → castDstField a ⟨n, ps, "[]" ++ S⟩ ⟨n1, pd, "[]" ++ D⟩ =
      (sliceHelperName false false S D ++ "(" ++ (a ++ "." ++ n) ++ ")", true)) ∧
    castDstField a ⟨n, ps, "[]" ++ S⟩ ⟨n1, pd, "[]*" ++ D⟩ =
      (sliceHelperName false true S D ++ "(" ++ (a ++ "." ++ n) ++ ")", true) ∧
    castDstField a ⟨n, ps, "[]*" ++ S⟩ ⟨n1, pd, "[]" ++ D⟩ =
      (sliceHelperName true false S D ++ "(" ++ (a ++ "." ++ n) ++ ")", true) ∧
    (S ≠ D → castDstField a ⟨n, ps, "[]*" ++ S⟩ ⟨n1, pd, "[]*" ++ D⟩ =
      (sliceHelperName true true S D ++ "(" ++ (a ++ "." ++ n) ++ ")", true)) := by
  obtain ⟨⟨d1, d2, d3, d4, d5, d6, d7, d8⟩, e1, e2, e3, e4, e5, e6, e7, e8, e9⟩ :=
    slice_dst_facts D hD
  obtain ⟨⟨s1, s2, s3, s4, s5, s6, s7, s8⟩, t1, t2, t3, t4, t5, t6, t7, t8, t9⟩ :=
    slice_dst_facts S hS
  obtain ⟨p1, p2, p3, p4, p5, p6, p7, p8⟩ := slice_pair_facts D hD S hS
  refine ⟨?_, ?_, ?_, ?_⟩
  · intro hne
    have q := p1 hne
    rw [sliceHelperName_call]
    simp only [castDstField, q, p5, d1, d2, d3, d4, d5, d6, d7, d8, s7, s8, if_true, if_false,
      Bool.false_eq_true]
  · rw [sliceHelperName_call]
    simp only [castDstField, p4, p7, e1, e2, e3, e4, e5, e6, e7, e8, e9, s7, s8, if_true,
      if_false, Bool.false_eq_true]
  · rw [sliceHelperName_call]
    simp only [castDstField, p3, p6, d1, d2, d3, d4, d5, d6, d7, d8, t7, t8, t9, if_true,
      if_false, Bool.false_eq_true]
  · intro hne
    have q := p2 hne
    rw [sliceHelperName_call]
    simp only [castDstField, q, p8, e1, e2, e3, e4, e5, e6, e7, e8, e9, t7, t8, t9, if_true,
      if_false, Bool.false_eq_true]

/-! ## Further lemmas on the rule map and the plan -/

theorem names_mapValues (m : RuleMap) (hm : RuleMapWF m) :
    (mapValues m).map FieldMappingRule.DstFieldName = m.map Prod.fst := by
  unfold mapValues
  rw [List.map_map]
  apply List.map_congr_left
  intro p hp
  exact hm.2 p hp

theorem searchUsedSrc_none (srcList : List src) (e : String)
    (h : ∀ s ∈ srcList, Contains e s.Alias = false) : searchUsedSrc srcList e = none := by
  unfold searchUsedSrc
  rw [List.find?_eq_none]
  intro s hs
  simp [h s hs]

theorem listMapperCount_foldl_pos (lens : List Nat) (c : Nat) (hc : 0 < c)
    (h : ∀ l ∈ lens, 0 < l) :
    (lens.foldl (fun count l => if count = 0 ∨ count > l then l else count) c = c ∨
      lens.foldl (fun count l => if count = 0 ∨ count > l then l else count) c ∈ lens) ∧
    lens.foldl (fun count l => if count = 0 ∨ count > l then l else count) c ≤ c ∧
    ∀ l ∈ lens, lens.foldl (fun count l => if count = 0 ∨ count > l then l else count) c ≤ l := by
  induction lens generalizing c with
  | nil => simp
  | cons x rest ih =>
    have hx : 0 < x := h x (List.mem_cons_self _ _)
    have hrest : ∀ l ∈ rest, 0 < l := fun l hl => h l (List.mem_cons_of_mem _ hl)
    rw [List.foldl_cons]
    by_cases hcx : c = 0 ∨ c > x
    · rw [if_pos hcx]
      obtain ⟨h1, h2, h3⟩ := ih x hx hrest
      have hxc : x ≤ c := by omega
      refine ⟨?_, by omega, ?_⟩
      · rcases h1 with h1 | h1
        · exact Or.inr (by rw [h1]; exact List.mem_cons_self _ _)
        · exact Or.inr (List.mem_cons_of_mem _ h1)
      · intro l hl
        rcases List.mem_cons.mp hl with hl | hl
        · subst hl
          exact h2
        · exact h3 l hl
    · rw [if_neg hcx]
      obtain ⟨h1, h2, h3⟩ := ih c hc hrest
      refine ⟨?_, h2, ?_⟩
      · rcases h1 with h1 | h1
        · exact Or.inl h1
        · exact Or.inr (List.mem_cons_of_mem _ h1)
      · intro l hl
        rcases List.mem_cons.mp hl with hl | hl
        · subst hl
          omega
        · exact h3 l hl

theorem listMapperCount_of_pos (lens : List Nat) (hne : lens ≠ [])
    (h : ∀ l ∈ lens, 0 < l) :
    listMapperCount lens ∈ lens ∧ ∀ l ∈ lens, listMapperCount lens ≤ l := by
  match lens, hne with
  | x :: rest, _ =>
    have hx : 0 < x := h x (List.mem_cons_self _ _)
    have hrest : ∀ l ∈ rest, 0 < l := fun l hl => h l (List.mem_cons_of_mem _ hl)
    obtain ⟨h1, h2, h3⟩ := listMapperCount_foldl_pos rest x hx hrest
    have e : listMapperCount (x :: rest) =
        rest.foldl (fun count l => if count = 0 ∨ count > l then l else count) x := by
      simp [listMapperCount]
    rw [e]
    refine ⟨?_, ?_⟩
    · rcases h1 with h1 | h1
      · rw [h1]
        exact List.mem_cons_self _ _
      · exact List.mem_cons_of_mem _ h1
    · intro l hl
      rcases List.mem_cons.mp hl with hl | hl
      · subst hl
        exact h2
      · exact h3 l hl

/-! ## Lemmas on the closing row of the matcher -/

theorem castDstField_outside (a : String) (sf df : field)
    (h1 : df.TypeStr ≠ sf.TypeStr) (h2 : sf.TypeStr ≠ "*" ++ df.TypeStr)
    (ha : ¬ (df.TypeStr = "*bool" ∧ sf.TypeStr = "bool"))
    (hb : ¬ (df.TypeStr = "*string" ∧ sf.TypeStr = "string"))
    (hc : ¬ (df.TypeStr ∈ numericTypes ++ ptrNumericTypes ∧
      sf.TypeStr ∈ numericTypes ++ ptrNumericTypes))
    (hd : ¬ (df.TypeStr ∈ sliceTypes ++ ptrSliceTypes ∧
      sf.TypeStr ∈ sliceTypes ++ ptrSliceTypes)) :
    castDstField a sf df = (a ++ "." ++ sf.Name, false) := by
  have h2' : ¬ "*" ++ df.TypeStr = sf.TypeStr := fun e => h2 e.symm
  simp only [List.mem_append] at hc hd
  unfold castDstField
  simp only [h1, h2', if_false]
  by_cases c1 : df.TypeStr = "bool"
  · have hs : ¬ sf.TypeStr = "*bool" := fun e => h2 (by rw [e, c1]; decide)
    rw [if_pos c1, if_neg hs]
  rw [if_neg c1]
  by_cases c2 : df.TypeStr = "string"
  · have hs : ¬ sf.TypeStr = "*string" := fun e => h2 (by rw [e, c2]; decide)
    rw [if_pos c2, if_neg hs]
  rw [if_neg c2]
  by_cases c3 : df.TypeStr = "*bool"
  · rw [if_pos c3, if_neg (fun e => ha ⟨c3, e⟩)]
  rw [if_neg c3]
  by_cases c4 : df.TypeStr = "*string"
  · rw [if_pos c4, if_neg (fun e => hb ⟨c4, e⟩)]
  rw [if_neg c4]
  by_cases c5 : df.TypeStr ∈ numericTypes
  · rw [if_pos c5, if_neg (fun e => hc ⟨Or.inl c5, Or.inl e⟩),
      if_neg (fun e => hc ⟨Or.inl c5, Or.inr e⟩)]
  rw [if_neg c5]
  by_cases c6 : df.TypeStr ∈ ptrNumericTypes
  · rw [if_pos c6, if_neg (fun e => hc ⟨Or.inr c6, Or.inl e⟩),
      if_neg (fun e => hc ⟨Or.inr c6, Or.inr e⟩)]
  rw [if_neg c6]
  by_cases c7 : df.TypeStr ∈ sliceTypes
  · rw [if_pos c7, if_neg (fun e => hd ⟨Or.inl c7, Or.inl e⟩),
      if_neg (fun e => hd ⟨Or.inl c7, Or.inr e⟩)]
  rw [if_neg c7]
  by_cases c8 : df.TypeStr ∈ ptrSliceTypes
  · rw [if_pos c8, if_neg (fun e => hd ⟨Or.inr c8, Or.inl e⟩),
      if_neg (fun e => hd ⟨Or.inr c8, Or.inr e⟩)]
  rw [if_neg c8]

theorem map_type_head (k v : String) :
    ("map[" ++ k ++ "]" ++ v).data.head? = some 'm' := by
  simp [String.data_append]

theorem labels_not_map :
    ∀ x ∈ ["*bool", "*string", "bool", "string"] ++ numericTypes ++ ptrNumericTypes ++
      sliceTypes ++ ptrSliceTypes, x.data.head? ≠ some 'm' := by
  decide

/-- A type string that is none of the case labels is on neither side of a
row of the table. -/
theorem castDstField_of_not_label (a : String) (sf df : field) (T : String)
    (hT : T = df.TypeStr ∨ T = sf.TypeStr)
    (hl : T ∉ ["*bool", "*string", "bool", "string"] ++ numericTypes ++ ptrNumericTypes ++
      sliceTypes ++ ptrSliceTypes)
    (h1 : df.TypeStr ≠ sf.TypeStr) (h2 : sf.TypeStr ≠ "*" ++ df.TypeStr) :
    castDstField a sf df = (a ++ "." ++ sf.Name, false) := by
  simp only [List.mem_append, not_or] at hl
  obtain ⟨⟨⟨⟨l1, l2⟩, l3⟩, l4⟩, l5⟩ := hl
  simp only [List.mem_cons, List.mem_singleton, List.not_mem_nil, or_false, not_or] at l1
  obtain ⟨m1, m2, m3, m4⟩ := l1
  apply castDstField_outside a sf df h1 h2
  · rcases hT with e | e
    · exact fun h => m1 (e ▸ h.1)
    · exact fun h => m3 (e ▸ h.2)
  · rcases hT with e | e
    · exact fun h => m2 (e ▸ h.1)
    · exact fun h => m4 (e ▸ h.2)
  · simp only [List.mem_append]
    rcases hT with e | e
    · exact fun h => h.1.elim (fun h => l2 (e ▸ h)) (fun h => l3 (e ▸ h))
    · exact fun h => h.2.elim (fun h => l2 (e ▸ h)) (fun h => l3 (e ▸ h))
  · simp only [List.mem_append]
    rcases hT with e | e
    · exact fun h => h.1.elim (fun h => l4 (e ▸ h)) (fun h => l5 (e ▸ h))
    · exact fun h => h.2.elim (fun h => l4 (e ▸ h)) (fun h => l5 (e ▸ h))

theorem map_type_not_label (k v : String) :
    "map[" ++ k ++ "]" ++ v ∉ ["*bool", "*string", "bool", "string"] ++ numericTypes ++
      ptrNumericTypes ++ sliceTypes ++ ptrSliceTypes :=
  fun h => labels_not_map _ h (map_type_head k v)

/-! ## Lemmas on `Contains`, `len` and `searchUsedField` -/

theorem Contains_iff (s sub : String) : Contains s sub = true ↔ sub.data <:+: s.data := by
  unfold Contains
  rw [List.any_eq_true, List.infix_iff_prefix_suffix]
  constructor
  · rintro ⟨t, ht, hp⟩
    exact ⟨t, List.isPrefixOf_iff_prefix.mp hp, (List.mem_tails _ _).mp ht⟩
  · rintro ⟨t, hp, ht⟩
    exact ⟨t, (List.mem_tails _ _).mpr ht, List.isPrefixOf_iff_prefix.mpr hp⟩

theorem Contains_self (s : String) : Contains s s = true :=
  (Contains_iff s s).mpr List.infix_rfl

theorem len_eq (s : String) : len s = String.utf8Len s.data := rfl

theorem eq_of_infix_of_utf8Len_le (l1 l2 : List Char) (h : l1 <:+: l2)
    (hl : String.utf8Len l2 ≤ String.utf8Len l1) : l1 = l2 := by
  obtain ⟨s, t, e⟩ := h
  have e1 := congrArg String.utf8Len e
  simp only [String.utf8Len_append] at e1
  have hs : String.utf8Len s = 0 := by omega
  have ht : String.utf8Len t = 0 := by omega
  rw [String.utf8Len_eq_zero] at hs ht
  subst hs ht
  simpa using e

/-- A field reference contained in an exact field reference has a name that is
not longer, and one of equal length is that exact reference. -/
theorem len_le_of_Contains_exact (a castRow : String) (f g : field)
    (hf : castRow = a ++ "." ++ f.Name)
    (hg : Contains castRow (a ++ "." ++ g.Name) = true) :
    len g.Name ≤ len f.Name ∧ (len f.Name ≤ len g.Name → castRow = a ++ "." ++ g.Name) := by
  have hi := (Contains_iff _ _).mp hg
  have hle := String.utf8Len_le_of_infix hi
  rw [hf] at hi hle
  simp only [String.data_append, String.utf8Len_append] at hle
  rw [len_eq, len_eq]
  refine ⟨by omega, ?_⟩
  intro h
  rw [hf]
  apply String.ext
  apply (eq_of_infix_of_utf8Len_le _ _ hi ?_).symm
  simp only [String.data_append, String.utf8Len_append]
  omega

theorem isLongestMatch_longerField (a c : String) (pre : List field) (f : field)
    (res : Option field) (h : isLongestMatch a c pre res) :
    isLongestMatch a c (pre ++ [f]) (longerField a c res f) := by
  unfold longerField
  by_cases hm : Contains c (a ++ "." ++ f.Name) = true
  · rw [if_pos hm]
    cases res with
    | none =>
      refine ⟨pre, [], rfl, hm, ?_, by simp⟩
      intro g hg hgm
      rw [h g hg] at hgm
      cases hgm
    | some r =>
      obtain ⟨p1, p2, hpre, hr, h1, h2⟩ := h
      dsimp only
      by_cases hlt : len r.Name < len f.Name
      · rw [if_pos hlt]
        refine ⟨pre, [], rfl, hm, ?_, by simp⟩
        intro g hg hgm
        rw [hpre] at hg
        rcases List.mem_append.mp hg with hg | hg
        · exact Nat.lt_trans (h1 g hg hgm) hlt
        · rcases List.mem_cons.mp hg with hg | hg
          · rw [hg]
            exact hlt
          · exact Nat.lt_of_le_of_lt (h2 g hg hgm) hlt
      · rw [if_neg hlt]
        refine ⟨p1, p2 ++ [f], by simp [hpre], hr, h1, ?_⟩
        intro g hg hgm
        rcases List.mem_append.mp hg with hg | hg
        · exact h2 g hg hgm
        · rw [List.mem_singleton.mp hg]
          omega
  · rw [if_neg hm]
    have hmf : Contains c (a ++ "." ++ f.Name) = false := by simpa using hm
    cases res with
    | none =>
      intro g hg
      rcases List.mem_append.mp hg with hg | hg
      · exact h g hg
      · rw [List.mem_singleton.mp hg]
        exact hmf
    | some r =>
      obtain ⟨p1, p2, hpre, hr, h1, h2⟩ := h
      refine ⟨p1, p2 ++ [f], by simp [hpre], hr, h1, ?_⟩
      intro g hg hgm
      rcases List.mem_append.mp hg with hg | hg
      · exact h2 g hg hgm
      · rw [List.mem_singleton.mp hg, hmf] at hgm
        cases hgm

theorem isLongestMatch_foldl (a c : String) (fs pre : List field) (res : Option field)
    (h : isLongestMatch a c pre res) :
    isLongestMatch a c (pre ++ fs) (fs.foldl (longerField a c) res) := by
  induction fs generalizing pre res with
  | nil => simpa using h
  | cons f rest ih =>
    have := ih (pre ++ [f]) _ (isLongestMatch_longerField a c pre f res h)
    simpa using this

theorem isLongestMatch_searchUsedField (s : src) (castRow : String) :
    isLongestMatch s.Alias castRow s.Fields (searchUsedField s castRow) := by
  unfold searchUsedField
  split
  · rename_i f hfind
    obtain ⟨hp, pre, post, hsplit, hpre⟩ := List.find?_eq_some.mp hfind
    have hexact : castRow = s.Alias ++ "." ++ f.Name := by simpa using hp
    refine ⟨pre, post, hsplit, ?_, ?_, ?_⟩
    · rw [← hexact]
      exact Contains_self castRow
    · intro g hg hgm
      obtain ⟨h1, h2⟩ := len_le_of_Contains_exact s.Alias castRow f g hexact hgm
      by_contra hnot
      have hne := hpre g hg
      have := h2 (by omega)
      simp [this] at hne
    · intro g _ hgm
      exact (len_le_of_Contains_exact s.Alias castRow f g hexact hgm).1
  · have := isLongestMatch_foldl s.Alias castRow s.Fields [] none (by intro g hg; cases hg)
    simpa using this

/-! ## Further lemmas on `Split`, `TrimSpace` and `parseRelation` -/

theorem splitChars_join (sep : Char) (l : List Char) :
    l = (splitChars sep l).1 ++ (splitChars sep l).2.flatMap (fun p => sep :: p) := by
  induction l with
  | nil => simp [splitChars]
  | cons c cs ih =>
    by_cases h : c = sep
    · subst h
      simp only [splitChars, if_true, List.nil_append, List.flatMap_cons, List.cons_append]
      rw [← ih]
    · simp only [splitChars, h, if_false, List.cons_append]
      rw [← ih]

theorem splitChars_no_sep (sep : Char) (l : List Char) :
    sep ∉ (splitChars sep l).1 ∧ ∀ p ∈ (splitChars sep l).2, sep ∉ p := by
  induction l with
  | nil => simp [splitChars]
  | cons c cs ih =>
    by_cases h : c = sep
    · subst h
      simp only [splitChars, if_true, List.not_mem_nil, not_false_eq_true, List.mem_cons,
        true_and]
      rintro p (hp | hp)
      · rw [hp]
        exact ih.1
      · exact ih.2 p hp
    · simp only [splitChars, h, if_false, List.mem_cons, not_or]
      exact ⟨⟨fun e => h e.symm, ih.1⟩, ih.2⟩

/-- A text with exactly one separator splits into the text before it and the
text after it. -/
theorem Split_of_count_one (s : String) (sep : Char) (h : s.data.count sep = 1) :
    ∃ p q, Split s sep = [p, q] ∧ s.data = p.data ++ sep :: q.data ∧ sep ∉ p.data ∧
      sep ∉ q.data := by
  have hlen := length_splitChars sep s.data
  rw [h] at hlen
  have hjoin := splitChars_join sep s.data
  have hno := splitChars_no_sep sep s.data
  match hq : (splitChars sep s.data).2, hlen with
  | [q], _ =>
    rw [hq] at hjoin hno
    refine ⟨String.mk (splitChars sep s.data).1, String.mk q, ?_, ?_, hno.1,
      hno.2 q (List.mem_singleton.mpr rfl)⟩
    · simp [Split, hq]
    · simpa using hjoin

theorem mem_of_mem_trimChars (p : Char → Bool) (l : List Char) (c : Char)
    (h : c ∈ trimChars p l) : c ∈ l := by
  unfold trimChars at h
  rw [List.mem_reverse] at h
  have h1 := (List.dropWhile_suffix p).subset h
  rw [List.mem_reverse] at h1
  exact (List.dropWhile_suffix p).subset h1

theorem parseRelation_of_split (relation lhs rhs : String)
    (hsplit : Split relation ':' = [lhs, rhs]) :
    (∀ p q, Split (TrimSpace lhs) '.' = [p, q] →
      parseRelation relation = .ok (TrimSpace p, TrimSpace q, TrimSpace rhs)) ∧
    ((Split (TrimSpace lhs) '.').length ≠ 2 →
      parseRelation relation = .ok ("", TrimSpace lhs, TrimSpace rhs)) := by
  unfold parseRelation
  rw [hsplit]
  dsimp only
  refine ⟨?_, ?_⟩
  · intro p q hpq
    rw [hpq]
  · intro hlen
    split
    · rename_i a b hab
      rw [hab] at hlen
      simp at hlen
    · rfl

theorem castDstField_outsideTable (a : String) (sf df : field)
    (h : outsideTable df.TypeStr sf.TypeStr) :
    castDstField a sf df = (a ++ "." ++ sf.Name, false) :=
  castDstField_outside a sf df h.1 h.2.1 h.2.2.1 h.2.2.2.1 h.2.2.2.2.1 h.2.2.2.2.2

theorem cross_family_outside :
    outsideTable "bool" "string" ∧ outsideTable "string" "bool" ∧
    (∀ N ∈ numericTypes, outsideTable "bool" N ∧ outsideTable N "bool" ∧
      outsideTable "string" N ∧ outsideTable N "string") ∧
    outsideTable "[][]int" "[][]int64" ∧ outsideTable "[][]int64" "[][]int" := by
  decide

/-! ## Lemmas on the alias registry -/

theorem Contains_append_left (a b : String) : Contains (a ++ b) a = true := by
  rw [Contains_iff, String.data_append]
  exact (List.prefix_append _ _).isInfix

/-- The first source whose alias occurs in the expression is the one no
earlier alias occurs in. -/
theorem searchUsedSrc_first (before after : List src) (s : src) (e : String)
    (hbefore : ∀ t ∈ before, Contains e t.Alias = false) (hs : Contains e s.Alias = true) :
    searchUsedSrc (before ++ s :: after) e = some s := by
  unfold searchUsedSrc
  induction before with
  | nil => simp [List.find?, hs]
  | cons t rest ih =>
    have ht := hbefore t (List.mem_cons_self _ _)
    rw [List.cons_append, List.find?_cons_of_neg _ (by simp [ht])]
    exact ih (fun u hu => hbefore u (List.mem_cons_of_mem _ hu))

/-- An expression that is exactly `alias.Name` of a field yields a field of
that name, the field itself when the names are distinct. -/
theorem searchUsedField_exact (s : src) (f : field) (hf : f ∈ s.Fields) :
    ∃ r, searchUsedField s (s.Alias ++ "." ++ f.Name) = some r ∧ r.Name = f.Name ∧
      ((s.Fields.map field.Name).Nodup → r = f) := by
  have hsome : ∃ r, s.Fields.find?
      (fun g => decide (s.Alias ++ "." ++ f.Name = s.Alias ++ "." ++ g.Name)) = some r := by
    cases hfind : s.Fields.find?
        (fun g => decide (s.Alias ++ "." ++ f.Name = s.Alias ++ "." ++ g.Name)) with
    | some r => exact ⟨r, rfl⟩
    | none =>
      rw [List.find?_eq_none] at hfind
      exact absurd (by simp) (hfind f hf)
  obtain ⟨r, hfind⟩ := hsome
  have hres : searchUsedField s (s.Alias ++ "." ++ f.Name) = some r := by
    simp only [searchUsedField, hfind]
  have hp := (List.find?_eq_some.mp hfind).1
  have hr : s.Alias ++ "." ++ f.Name = s.Alias ++ "." ++ r.Name := by simpa using hp
  have hname : r.Name = f.Name := by
    have e1 := congrArg String.data hr
    simp only [String.data_append] at e1
    exact (String.ext (List.append_cancel_left e1)).symm
  refine ⟨r, hres, hname, ?_⟩
  intro hnd
  exact List.inj_on_of_nodup_map hnd (List.mem_of_find?_eq_some hfind) hf hname

/-! ## The claims -/

/-- C1 (identity matching). For a source field and a destination field of the
same name and the same type string `castDstField` returns the pass-through
reference `alias.name` and `true`. Consequently, for one source and no
relations (field names pairwise distinct within the destination and within
the source), a `FieldMappingRules` slice exists and each one holds, for a
destination field with a same-named source field of the same type, exactly one
rule of that destination name, with `CastStr = alias.name`, `SrcAlias` the
source alias, `SrcFieldName` the name and `Casted = true`. -/
theorem identity_matching (dst s : src) (d f : field)
    (hd : d ∈ dst.Fields) (hdn : (dst.Fields.map field.Name).Nodup)
    (hf : f ∈ s.Fields) (hsn : (s.Fields.map field.Name).Nodup)
    (hname : f.Name = d.Name) (htype : f.TypeStr = d.TypeStr) :
    (∀ (a n t : String) (p q : Bool),
        castDstField a ⟨n, p, t⟩ ⟨n, q, t⟩ = (a ++ "." ++ n, true)) ∧
    (∃ plan, isFieldMappingRules dst [s] [] plan) ∧
    ∀ plan, isFieldMappingRules dst [s] [] plan →
      ∃ r ∈ plan, r.DstFieldName = d.Name ∧ r.CastStr = s.Alias ++ "." ++ d.Name ∧
        r.SrcAlias = s.Alias ∧ r.SrcFieldName = d.Name ∧ r.Casted = true ∧
        ∀ q ∈ plan, q.DstFieldName = d.Name → q = r := by
  refine ⟨fun a n t p q => castDstField_same_type a _ _ rfl, ?_, ?_⟩
  · exact ⟨_, isFieldMappingRules_mapValues dst [s] [] (resolveAuto dst [s]) rfl⟩
  · intro plan hplan
    obtain ⟨dpre, dpost, hdsplit, hdpost⟩ := split_of_nodup_names dst.Fields d hd hdn
    obtain ⟨pre, post, hssplit, hpost⟩ := split_of_nodup_names s.Fields f hf hsn
    have hget := mapGet_resolveAuto_last dst dpre dpost d hdsplit hdpost [] [] s pre post f
      hssplit hname (fun g hg => hname ▸ hpost g hg) (by simp)
    have hcast := castDstField_same_type s.Alias f d htype.symm
    obtain ⟨hmem, huniq⟩ := plan_rule_of_mapGet dst [s] [] (resolveAuto dst [s]) rfl d.Name
      (autoRule s f d) hget plan hplan
    refine ⟨autoRule s f d, hmem, rfl, ?_, rfl, hname, ?_, huniq⟩
    · simp [autoRule, hcast, hname]
    · simp [autoRule, hcast]

/-- Witness of C1: destination `{ID int64; Tags []string}`, source
`{Tags []string; ID int}`, field `Tags`. -/
theorem identity_matching_witness :
    ((⟨"Tags", true, "[]string"⟩ : field) ∈ sampleDst.Fields ∧
      (sampleDst.Fields.map field.Name).Nodup ∧
      (⟨"Tags", true, "[]string"⟩ : field) ∈ sampleSrc.Fields ∧
      (sampleSrc.Fields.map field.Name).Nodup) ∧
    ((∀ (a n t : String) (p q : Bool),
        castDstField a ⟨n, p, t⟩ ⟨n, q, t⟩ = (a ++ "." ++ n, true)) ∧
    (∃ plan, isFieldMappingRules sampleDst [sampleSrc] [] plan) ∧
    ∀ plan, isFieldMappingRules sampleDst [sampleSrc] [] plan →
      ∃ r ∈ plan, r.DstFieldName = "Tags" ∧ r.CastStr = "src" ++ "." ++ "Tags" ∧
        r.SrcAlias = "src" ∧ r.SrcFieldName = "Tags" ∧ r.Casted = true ∧
        ∀ q ∈ plan, q.DstFieldName = "Tags" → q = r) :=
  ⟨by decide,
   identity_matching sampleDst sampleSrc ⟨"Tags", true, "[]string"⟩ ⟨"Tags", true, "[]string"⟩
    (by decide) (by decide) (by decide) (by decide) rfl rfl⟩

/-- Counterexample to C2 as stated: destination `{Flag bool}` with the sources
`first{Flag bool}`, `second{Flag bool}`, `third{Flag string}`. `castDstField`
accepts the field of `first` and of `second`, the last accepted source is
`second`, yet the rule stored for `Flag` after the automatic loop is the one
of `third` (with `Casted = false`), not one with the alias of `second`. -/
theorem last_accepted_source_counterexample :
    (castDstField "first" ⟨"Flag", false, "bool"⟩ ⟨"Flag", false, "bool"⟩).2 = true ∧
    (castDstField "second" ⟨"Flag", false, "bool"⟩ ⟨"Flag", false, "bool"⟩).2 = true ∧
    lastAcceptedSource ⟨"Flag", false, "bool"⟩ [flagFirst, flagSecond, flagThird] =
      some flagSecond ∧
    mapGet (resolveAuto flagDst [flagFirst, flagSecond, flagThird]) "Flag" =
      some ⟨"Flag", "third", "C", "Flag", false, "third.Flag", false⟩ ∧
    ¬ ∃ r, mapGet (resolveAuto flagDst [flagFirst, flagSecond, flagThird]) "Flag" = some r ∧
        r.SrcAlias = flagSecond.Alias := by
  decide

/-- C2, amended (last source wins). With field names pairwise distinct within
the destination and within the source `s`: when `s` has a field `f` of the
name of the destination field `d` and no source after `s` has a field of that
name, the rule stored for that name after the automatic loop is the one built
from `s` and `f`, whether `castDstField` accepts the pair or not: `SrcAlias`
is the alias of `s`, and `CastStr`, `Casted` are the two results of
`castDstField` for `s`. -/
theorem last_same_named_source_wins (dst : src) (before after : List src) (s : src)
    (d f : field) (hd : d ∈ dst.Fields) (hdn : (dst.Fields.map field.Name).Nodup)
    (hf : f ∈ s.Fields) (hsn : (s.Fields.map field.Name).Nodup) (hname : f.Name = d.Name)
    (hafter : ∀ t ∈ after, ∀ g ∈ t.Fields, g.Name ≠ d.Name) :
    ∃ r, mapGet (resolveAuto dst (before ++ s :: after)) d.Name = some r ∧
      r.DstFieldName = d.Name ∧ r.SrcAlias = s.Alias ∧ r.SrcFieldName = f.Name ∧
      r.SrcFieldPtr = f.Ptr ∧ r.CastStr = (castDstField s.Alias f d).1 ∧
      r.Casted = (castDstField s.Alias f d).2 := by
  obtain ⟨dpre, dpost, hdsplit, hdpost⟩ := split_of_nodup_names dst.Fields d hd hdn
  obtain ⟨pre, post, hssplit, hpost⟩ := split_of_nodup_names s.Fields f hf hsn
  exact ⟨autoRule s f d,
    mapGet_resolveAuto_last dst dpre dpost d hdsplit hdpost before after s pre post f
      hssplit hname (fun g hg => hname ▸ hpost g hg) hafter,
    rfl, rfl, rfl, rfl, rfl, rfl⟩

/-- Witness of C2: destination `{Flag bool}`, sources `first{Flag bool}`,
`second{Flag bool}` and a third source without a field `Flag`; the rule
references `second.Flag`. -/
theorem last_same_named_source_wins_witness :
    ((⟨"Flag", false, "bool"⟩ : field) ∈ flagDst.Fields ∧
      (flagDst.Fields.map field.Name).Nodup ∧
      (⟨"Flag", false, "bool"⟩ : field) ∈ flagSecond.Fields ∧
      (flagSecond.Fields.map field.Name).Nodup ∧
      (∀ t ∈ [sampleSrc], ∀ g ∈ t.Fields, g.Name ≠ "Flag") ∧
      castDstField "second" ⟨"Flag", false, "bool"⟩ ⟨"Flag", false, "bool"⟩ =
        ("second.Flag", true)) ∧
    ∃ r, mapGet (resolveAuto flagDst ([flagFirst] ++ flagSecond :: [sampleSrc])) "Flag" = some r ∧
      r.DstFieldName = "Flag" ∧ r.SrcAlias = "second" ∧ r.SrcFieldName = "Flag" ∧
      r.SrcFieldPtr = false ∧
      r.CastStr = (castDstField "second" ⟨"Flag", false, "bool"⟩ ⟨"Flag", false, "bool"⟩).1 ∧
      r.Casted = (castDstField "second" ⟨"Flag", false, "bool"⟩ ⟨"Flag", false, "bool"⟩).2 :=
  ⟨by decide,
   last_same_named_source_wins flagDst [flagFirst] [sampleSrc] flagSecond
    ⟨"Flag", false, "bool"⟩ ⟨"Flag", false, "bool"⟩ (by decide) (by decide) (by decide)
    (by decide) rfl (by decide)⟩

/-- C3 (manual override supremacy). When every relation is well-formed (has
exactly one `:`) and `rel` is the last relation whose parsed destination field
is `X`, the run yields a rule map, and the rule of `X` in it is the rule built
from `rel` and the source list alone, `relationRule srcList X e` with `e` the
white-space-trimmed text after the `:`: it has `Casted = true` and
`CastStr = e`, and nothing of the destination, the automatic rules or the
earlier relations enters it. Every `FieldMappingRules` slice holds this rule
and no other rule of destination name `X`. -/
theorem manual_override_supremacy (dst : src) (srcList : List src) (pre post : List String)
    (rel lhs rhs a X e : String)
    (hwf : ∀ r ∈ pre ++ rel :: post, r.data.count ':' = 1)
    (hsplit : Split rel ':' = [lhs, rhs])
    (hrel : parseRelation rel = .ok (a, X, e))
    (hpost : ∀ r ∈ post, ∀ a1 e1, parseRelation r ≠ .ok (a1, X, e1)) :
    e = TrimSpace rhs ∧
    ∃ m, fieldMappingRuleMap dst srcList (pre ++ rel :: post) = .ok m ∧
      mapGet m X = some (relationRule srcList X e) ∧
      (relationRule srcList X e).DstFieldName = X ∧
      (relationRule srcList X e).CastStr = TrimSpace rhs ∧
      (relationRule srcList X e).Casted = true ∧
      isFieldMappingRules dst srcList (pre ++ rel :: post) (mapValues m) ∧
      ∀ plan, isFieldMappingRules dst srcList (pre ++ rel :: post) plan →
        relationRule srcList X e ∈ plan ∧
        ∀ q ∈ plan, q.DstFieldName = X → q = relationRule srcList X e := by
  have he : e = TrimSpace rhs := by
    obtain ⟨a', d', h'⟩ := parseRelation_ok_of_split rel lhs rhs hsplit
    rw [hrel] at h'
    injection h' with h'
    exact (Prod.mk.inj (Prod.mk.inj h').2).2
  obtain ⟨m, hm⟩ := applyRelations_ok srcList (resolveAuto dst srcList) _ hwf
  have hget := mapGet_applyRelations_last srcList _ m pre post rel a X e hrel hpost hm
  obtain ⟨h1, h2, h3⟩ := relationRule_fields srcList X e
  refine ⟨he, m, hm, hget, h1, he ▸ h2, h3, isFieldMappingRules_mapValues _ _ _ m hm, ?_⟩
  intro plan hplan
  exact plan_rule_of_mapGet dst srcList _ m hm X _ hget plan hplan

/-- Witness of C3: destination `{ID int64; Tags []string}`, source
`{Tags []string; ID int}` (so `ID` has an automatic rule), relations
`ID: 1`, `Tags: nil`, `dst.ID : int64(src.ID) + 1 `, `Name: src.Tags[0]`. -/
theorem manual_override_supremacy_witness :
    ((∀ r ∈ ["ID: 1", "Tags: nil"] ++ "dst.ID : int64(src.ID) + 1 " :: ["Name: src.Tags[0]"],
        r.data.count ':' = 1) ∧
      Split "dst.ID : int64(src.ID) + 1 " ':' = ["dst.ID ", " int64(src.ID) + 1 "] ∧
      parseRelation "dst.ID : int64(src.ID) + 1 " = .ok ("dst", "ID", "int64(src.ID) + 1") ∧
      ∀ r ∈ ["Name: src.Tags[0]"], ∀ a1 e1, parseRelation r ≠ .ok (a1, "ID", e1)) ∧
    ("int64(src.ID) + 1" = TrimSpace " int64(src.ID) + 1 " ∧
    ∃ m, fieldMappingRuleMap sampleDst [sampleSrc]
        (["ID: 1", "Tags: nil"] ++ "dst.ID : int64(src.ID) + 1 " :: ["Name: src.Tags[0]"]) =
          .ok m ∧
      mapGet m "ID" = some (relationRule [sampleSrc] "ID" "int64(src.ID) + 1") ∧
      (relationRule [sampleSrc] "ID" "int64(src.ID) + 1").DstFieldName = "ID" ∧
      (relationRule [sampleSrc] "ID" "int64(src.ID) + 1").CastStr =
        TrimSpace " int64(src.ID) + 1 " ∧
      (relationRule [sampleSrc] "ID" "int64(src.ID) + 1").Casted = true ∧
      isFieldMappingRules sampleDst [sampleSrc]
        (["ID: 1", "Tags: nil"] ++ "dst.ID : int64(src.ID) + 1 " :: ["Name: src.Tags[0]"])
        (mapValues m) ∧
      ∀ plan, isFieldMappingRules sampleDst [sampleSrc]
          (["ID: 1", "Tags: nil"] ++ "dst.ID : int64(src.ID) + 1 " :: ["Name: src.Tags[0]"])
          plan →
        relationRule [sampleSrc] "ID" "int64(src.ID) + 1" ∈ plan ∧
        ∀ q ∈ plan, q.DstFieldName = "ID" → q = relationRule [sampleSrc] "ID" "int64(src.ID) + 1") :=
  have hpost : ∀ r ∈ ["Name: src.Tags[0]"], ∀ a1 e1, parseRelation r ≠ .ok (a1, "ID", e1) := by
    intro r hr a1 e1 h
    rw [List.mem_singleton.mp hr] at h
    have h2 : parseRelation "Name: src.Tags[0]" = .ok ("", "Name", "src.Tags[0]") := rfl
    rw [h2] at h
    injection h with h
    exact absurd (Prod.mk.inj (Prod.mk.inj h).2).1 (by decide)
  ⟨⟨by decide, by decide, rfl, hpost⟩,
   manual_override_supremacy sampleDst [sampleSrc] ["ID: 1", "Tags: nil"] ["Name: src.Tags[0]"]
    "dst.ID : int64(src.ID) + 1 " "dst.ID " " int64(src.ID) + 1 " "dst" "ID" "int64(src.ID) + 1"
    (by decide) (by decide) rfl hpost⟩

/-- C4 (malformed relation is fatal). `parseRelation` fails, with the error
`relation <text> incorrect format`, exactly when the relation does not have
exactly one `:`, and returns a result exactly when it has exactly one; and the
loop over the relations of a mapper completes exactly when every relation has
exactly one `:`, so a malformed relation aborts the run and is never skipped. -/
theorem malformed_relation_is_fatal (relation : String) :
    (parseRelation relation = .error ("relation " ++ relation ++ " incorrect format") ↔
      relation.data.count ':' ≠ 1) ∧
    ((∃ t, parseRelation relation = .ok t) ↔ relation.data.count ':' = 1) ∧
    ∀ (srcList : List src) (m : RuleMap) (rels : List String),
      (∃ m1, applyRelations srcList m rels = .ok m1) ↔ ∀ r ∈ rels, r.data.count ':' = 1 :=
  ⟨parseRelation_error_iff relation, parseRelation_ok_iff relation,
    fun srcList m rels => applyRelations_ok_iff srcList m rels⟩

/-- Counterexample to C5 as stated: destination `{Meta map[string]string}`,
source `{Tags []string; ID int}`, no relation. The rule map is empty, the
empty slice is the `FieldMappingRules`, and no possible `FieldMappingRules`
holds a rule of destination name `Meta` with `Casted = false`. -/
theorem unresolved_field_counterexample :
    (⟨"Meta", true, "map[string]string"⟩ : field) ∈ metaDst.Fields ∧
    (∀ s ∈ [sampleSrc], ∀ g ∈ s.Fields, g.Name ≠ "Meta") ∧
    fieldMappingRuleMap metaDst [sampleSrc] [] = .ok [] ∧
    isFieldMappingRules metaDst [sampleSrc] [] [] ∧
    ∀ plan, isFieldMappingRules metaDst [sampleSrc] [] plan →
      ¬ ∃ r ∈ plan, r.DstFieldName = "Meta" ∧ r.Casted = false := by
  refine ⟨by decide, by decide, rfl, by decide, ?_⟩
  intro plan hplan
  have h : plan.Perm [] := hplan
  rw [List.Perm.eq_nil h]
  simp

/-- C5, amended (unresolvable is non-fatal and omitted). When every relation
is well-formed, the run yields a rule map and a `FieldMappingRules` slice; a
destination field `d` without a same-named field in any source and targeted
by no relation has no entry in the map, and no `FieldMappingRules` slice holds
a rule with its name. -/
theorem unresolved_field_is_omitted (dst : src) (srcList : List src) (relations : List String)
    (d : field) (hwf : ∀ r ∈ relations, r.data.count ':' = 1)
    (hsrc : ∀ s ∈ srcList, ∀ g ∈ s.Fields, g.Name ≠ d.Name)
    (hrel : ∀ r ∈ relations, ∀ a e, parseRelation r ≠ .ok (a, d.Name, e)) :
    ∃ m, fieldMappingRuleMap dst srcList relations = .ok m ∧ mapGet m d.Name = none ∧
      isFieldMappingRules dst srcList relations (mapValues m) ∧
      ∀ plan, isFieldMappingRules dst srcList relations plan →
        ∀ q ∈ plan, q.DstFieldName ≠ d.Name := by
  obtain ⟨m, hm⟩ := applyRelations_ok srcList (resolveAuto dst srcList) relations hwf
  have hget : mapGet m d.Name = none := by
    rw [mapGet_applyRelations_of_no_target srcList _ m relations d.Name hrel hm]
    exact mapGet_resolveAuto_none dst srcList d.Name (fun _ _ _ s hs g hg => hsrc s hs g hg)
  exact ⟨m, hm, hget, isFieldMappingRules_mapValues _ _ _ m hm,
    fun plan hplan => plan_no_rule_of_mapGet dst srcList relations m hm d.Name hget plan hplan⟩

/-- Witness of C5: destination `{Meta map[string]string}`, source
`{Tags []string; ID int}`, relation `ID: 1`, field `Meta`. -/
theorem unresolved_field_is_omitted_witness :
    ((∀ r ∈ ["ID: 1"], r.data.count ':' = 1) ∧
      (∀ s ∈ [sampleSrc], ∀ g ∈ s.Fields, g.Name ≠ "Meta") ∧
      ∀ r ∈ ["ID: 1"], ∀ a e, parseRelation r ≠ .ok (a, "Meta", e)) ∧
    ∃ m, fieldMappingRuleMap metaDst [sampleSrc] ["ID: 1"] = .ok m ∧ mapGet m "Meta" = none ∧
      isFieldMappingRules metaDst [sampleSrc] ["ID: 1"] (mapValues m) ∧
      ∀ plan, isFieldMappingRules metaDst [sampleSrc] ["ID: 1"] plan →
        ∀ q ∈ plan, q.DstFieldName ≠ "Meta" :=
  have hrel : ∀ r ∈ ["ID: 1"], ∀ a e, parseRelation r ≠ .ok (a, "Meta", e) := by
    intro r hr a e h
    rw [List.mem_singleton.mp hr] at h
    have h2 : parseRelation "ID: 1" = .ok ("", "ID", "1") := rfl
    rw [h2] at h
    injection h with h
    exact absurd (Prod.mk.inj (Prod.mk.inj h).2).1 (by decide)
  ⟨⟨by decide, by decide, hrel⟩,
   unresolved_field_is_omitted metaDst [sampleSrc] ["ID: 1"] ⟨"Meta", true, "map[string]string"⟩
    (by decide) (by decide) hrel⟩

/-- C6 (pointer dereference). For every type string `T`, alias `a` and source
field name `n`, `castDstField` with destination type `T` and source type `*T`
returns the dereference `*a.n` and `true`. -/
theorem pointer_dereference (a n n1 T : String) (ps pd : Bool) :
    castDstField a ⟨n, ps, "*" ++ T⟩ ⟨n1, pd, T⟩ = ("*" ++ (a ++ "." ++ n), true) := by
  have h := star_append_ne T
  simp [castDstField, h.symm]

/-- Counterexample to C7 as stated: for the scalar type name `rune`,
destination `{R *rune}` and source `{R rune}`, `castDstField` returns the bare
reference and `false`: no pointer-constructing expression. -/
theorem pointer_wrap_counterexample :
    castDstField "src" ⟨"R", false, "rune"⟩ ⟨"R", true, "*rune"⟩ = ("src.R", false) := by
  decide

/-- C7, amended (pointer wrap). For every primitive type name `T` (`bool`,
`string` or one of the numeric family), `castDstField` with destination type
`*T` and source type `T` returns `true` and the expression `TPtr(a.n)` for
`bool` and `string`, `TPtr(T(a.n))` for a numeric `T`; for destination
`{Name *string}` and source `{Name string}` under the alias `src` it is
`stringPtr(src.Name)`. The rule built from a parsed source field whose type
string is `T` has `Casted = true` and `SrcFieldPtr = false`. For every type
string outside the primitive names the matcher returns the bare reference and
`false`. -/
theorem pointer_wrap (T : String) (hT : T ∈ primitiveTypes) :
    (∀ (a n n1 : String) (ps pd : Bool),
      castDstField a ⟨n, ps, T⟩ ⟨n1, pd, "*" ++ T⟩ =
        (if T ∈ numericTypes then T ++ "Ptr(" ++ T ++ "(" ++ (a ++ "." ++ n) ++ "))"
          else T ++ "Ptr(" ++ (a ++ "." ++ n) ++ ")", true)) ∧
    (∀ (s : src) (srcField : fieldMeta) (dstField : field),
      typeStrValue srcField.typeAST = T → dstField.TypeStr = "*" ++ T →
        (autoRule s (fieldOf srcField) dstField).Casted = true ∧
        (autoRule s (fieldOf srcField) dstField).SrcFieldPtr = false) ∧
    castDstField "src" ⟨"Name", false, "string"⟩ ⟨"Name", true, "*string"⟩ =
      ("stringPtr(src.Name)", true) ∧
    ∀ (U a n n1 : String) (ps pd : Bool), U ∉ primitiveTypes →
      castDstField a ⟨n, ps, U⟩ ⟨n1, pd, "*" ++ U⟩ = (a ++ "." ++ n, false) := by
  refine ⟨fun a n n1 ps pd => castDstField_wrap_primitive a n n1 T ps pd hT, ?_, by decide,
    fun U a n n1 ps pd hU => castDstField_wrap_other a n n1 U ps pd hU⟩
  intro s srcField dstField hs hd
  have hc := castDstField_wrap_primitive s.Alias srcField.name dstField.Name T
    (isPtr srcField.typeAST) dstField.Ptr hT
  have hf : fieldOf srcField = ⟨srcField.name, isPtr srcField.typeAST, T⟩ := by
    simp [fieldOf, hs]
  have hdf : dstField = ⟨dstField.Name, dstField.Ptr, "*" ++ T⟩ := by
    cases dstField
    simp_all
  refine ⟨?_, ?_⟩
  · simp only [autoRule]
    rw [hf, hdf, hc]
  · simp only [autoRule]
    exact isPtr_of_typeStrValue_primitive _ T hT hs

/-- Witness of C7 at `T = int64`. -/
theorem pointer_wrap_witness :
    "int64" ∈ primitiveTypes ∧
    ((∀ (a n n1 : String) (ps pd : Bool),
      castDstField a ⟨n, ps, "int64"⟩ ⟨n1, pd, "*" ++ "int64"⟩ =
        (if "int64" ∈ numericTypes then
            "int64" ++ "Ptr(" ++ "int64" ++ "(" ++ (a ++ "." ++ n) ++ "))"
          else "int64" ++ "Ptr(" ++ (a ++ "." ++ n) ++ ")", true)) ∧
    (∀ (s : src) (srcField : fieldMeta) (dstField : field),
      typeStrValue srcField.typeAST = "int64" → dstField.TypeStr = "*" ++ "int64" →
        (autoRule s (fieldOf srcField) dstField).Casted = true ∧
        (autoRule s (fieldOf srcField) dstField).SrcFieldPtr = false) ∧
    castDstField "src" ⟨"Name", false, "string"⟩ ⟨"Name", true, "*string"⟩ =
      ("stringPtr(src.Name)", true) ∧
    ∀ (U a n n1 : String) (ps pd : Bool), U ∉ primitiveTypes →
      castDstField a ⟨n, ps, U⟩ ⟨n1, pd, "*" ++ U⟩ = (a ++ "." ++ n, false)) :=
  ⟨by decide, pointer_wrap "int64" (by decide)⟩

/-- C8 (numeric cast). For distinct type names `S`, `D` of the numeric family
`castDstField` with destination type `D` and source type `S` returns the
double cast `D(D(a.n))` and `true`. -/
theorem numeric_cast (a n n1 S D : String) (ps pd : Bool)
    (hS : S ∈ numericTypes) (hD : D ∈ numericTypes) (hne : S ≠ D) :
    castDstField a ⟨n, ps, S⟩ ⟨n1, pd, D⟩ =
      (D ++ "(" ++ D ++ "(" ++ (a ++ "." ++ n) ++ "))", true) := by
  obtain ⟨h1, h2, h3, h4, h5, h6⟩ := numeric_facts D hD S hS hne
  simp only [castDstField, h1, h2, h3, h4, h5, h6, hS, hD, if_true, if_false]

/-- Witness of C8: destination `{ID int64}`, source `{ID int}` under the alias
`src` gives `int64(int64(src.ID))`. -/
theorem numeric_cast_witness :
    ("int" ∈ numericTypes ∧ "int64" ∈ numericTypes ∧ ("int" : String) ≠ "int64") ∧
    castDstField "src" ⟨"ID", false, "int"⟩ ⟨"ID", false, "int64"⟩ =
      ("int64(int64(src.ID))", true) :=
  ⟨by decide,
   numeric_cast "src" "ID" "ID" "int" "int64" false false (by decide) (by decide) (by decide)⟩

/-- C9 (what the code does for pointer-to-numeric from pointer-to-numeric).
For distinct numeric type names `S`, `D`, `castDstField` with destination type
`*D` and source type `*S` returns `true` with the expression `D(D(a.n))`: the
source reference is neither dereferenced nor re-wrapped with `DPtr`. -/
theorem ptr_numeric_to_ptr_numeric (a n n1 S D : String) (ps pd : Bool)
    (hS : S ∈ numericTypes) (hD : D ∈ numericTypes) (hne : S ≠ D) :
    castDstField a ⟨n, ps, "*" ++ S⟩ ⟨n1, pd, "*" ++ D⟩ =
      (D ++ "(" ++ D ++ "(" ++ (a ++ "." ++ n) ++ "))", true) := by
  obtain ⟨h1, h2, h3, h4, h5, h6, h7, h8, h9, h10, h11⟩ := ptr_numeric_facts D hD S hS hne
  simp only [castDstField, h1, h2, h3, h4, h5, h6, h7, h8, h9, h10, h11, if_true, if_false]

/-- Witness of C9: destination `{X *int64}`, source `{X *int}` under the alias
`src` gives `int64(int64(src.X))`, which is not `int64Ptr(int64(*src.X))`. -/
theorem ptr_numeric_to_ptr_numeric_witness :
    ("int" ∈ numericTypes ∧ "int64" ∈ numericTypes ∧ ("int" : String) ≠ "int64") ∧
    castDstField "src" ⟨"X", true, "*int"⟩ ⟨"X", true, "*int64"⟩ =
      ("int64(int64(src.X))", true) ∧
    ("int64(int64(src.X))" : String) ≠ "int64Ptr(int64(*src.X))" :=
  ⟨by decide,
   ptr_numeric_to_ptr_numeric "src" "X" "X" "int" "int64" true true (by decide) (by decide)
    (by decide),
   by decide⟩

/-- C10 (slice helper naming). For primitive element types `S` (source) and
`D` (destination) and every pair of distinct slice types over them,
`castDstField` returns `true` and one call on the source reference,
`helper(a.n)`, where the helper is `SArrTo<Title D>Arr` for value to value,
`SArrTo<Title D>PtrArr` for value to pointer, `SPtrArrTo<Title D>Arr` for
pointer to value and `SPtrArrTo<Title D>PtrArr` for pointer to pointer
elements; the helper name determines the source element type, the destination
element type and the direction; `Title` capitalises the first letter of the
primitive names; and for source `[]int32` and destination `[]int64` the
expression is `int32ArrToInt64Arr(a.n)`. -/
theorem slice_helper_naming (a n n1 S D : String) (ps pd : Bool)
    (hS : S ∈ primitiveTypes) (hD : D ∈ primitiveTypes) :
    (sliceTypes = primitiveTypes.map (fun T => "[]" ++ T) ∧
      ptrSliceTypes = primitiveTypes.map (fun T => "[]*" ++ T)) ∧
    (S ≠ D → castDstField a ⟨n, ps, "[]" ++ S⟩ ⟨n1, pd, "[]" ++ D⟩ =
      (sliceHelperName false false S D ++ "(" ++ (a ++ "." ++ n) ++ ")", true)) ∧
    castDstField a ⟨n, ps, "[]" ++ S⟩ ⟨n1, pd, "[]*" ++ D⟩ =
      (sliceHelperName false true S D ++ "(" ++ (a ++ "." ++ n) ++ ")", true) ∧
    castDstField a ⟨n, ps, "[]*" ++ S⟩ ⟨n1, pd, "[]" ++ D⟩ =
      (sliceHelperName true false S D ++ "(" ++ (a ++ "." ++ n) ++ ")", true) ∧
    (S ≠ D → castDstField a ⟨n, ps, "[]*" ++ S⟩ ⟨n1, pd, "[]*" ++ D⟩ =
      (sliceHelperName true true S D ++ "(" ++ (a ++ "." ++ n) ++ ")", true)) ∧
    (∀ (sp dp sp1 dp1 : Bool) (S1 D1 : String), S1 ∈ primitiveTypes → D1 ∈ primitiveTypes →
      sliceHelperName sp dp S D = sliceHelperName sp1 dp1 S1 D1 →
        sp = sp1 ∧ dp = dp1 ∧ S = S1 ∧ D = D1) ∧
    primitiveTypes.map Title =
      ["Bool", "String", "Byte", "Uint", "Uint8", "Uint16", "Uint32", "Uint64",
       "Int", "Int8", "Int16", "Int32", "Int64", "Float32", "Float64"] ∧
    castDstField a ⟨n, ps, "[]int32"⟩ ⟨n1, pd, "[]int64"⟩ =
      ("int32ArrToInt64Arr(" ++ (a ++ "." ++ n) ++ ")", true) := by
  obtain ⟨h1, h2, h3, h4⟩ := castDstField_slice a n n1 S D ps pd hS hD
  refine ⟨slice_labels, h1, h2, h3, h4, ?_, by decide, ?_⟩
  · intro sp dp sp1 dp1 S1 D1 hS1 hD1 h
    exact sliceHelperName_injective sp dp sp1 dp1 S D S1 D1 hS hD hS1 hD1 h
  · have h := (castDstField_slice a n n1 "int32" "int64" ps pd (by decide) (by decide)).1
      (by decide)
    have e1 : ("[]" ++ "int32" : String) = "[]int32" := by decide
    have e2 : ("[]" ++ "int64" : String) = "[]int64" := by decide
    have e3 : sliceHelperName false false "int32" "int64" ++ "(" = "int32ArrToInt64Arr(" := by
      decide
    rw [e1, e2, e3] at h
    exact h

/-- Witness of C10 at source element type `int32` and destination element
type `int64`. -/
theorem slice_helper_naming_witness :
    ("int32" ∈ primitiveTypes ∧ "int64" ∈ primitiveTypes) ∧
    ((sliceTypes = primitiveTypes.map (fun T => "[]" ++ T) ∧
      ptrSliceTypes = primitiveTypes.map (fun T => "[]*" ++ T)) ∧
    (("int32" : String) ≠ "int64" →
      castDstField "src" ⟨"Ids", true, "[]" ++ "int32"⟩ ⟨"Ids", true, "[]" ++ "int64"⟩ =
        (sliceHelperName false false "int32" "int64" ++ "(" ++ ("src" ++ "." ++ "Ids") ++ ")",
          true)) ∧
    castDstField "src" ⟨"Ids", true, "[]" ++ "int32"⟩ ⟨"Ids", true, "[]*" ++ "int64"⟩ =
      (sliceHelperName false true "int32" "int64" ++ "(" ++ ("src" ++ "." ++ "Ids") ++ ")",
        true) ∧
    castDstField "src" ⟨"Ids", true, "[]*" ++ "int32"⟩ ⟨"Ids", true, "[]" ++ "int64"⟩ =
      (sliceHelperName true false "int32" "int64" ++ "(" ++ ("src" ++ "." ++ "Ids") ++ ")",
        true) ∧
    (("int32" : String) ≠ "int64" →
      castDstField "src" ⟨"Ids", true, "[]*" ++ "int32"⟩ ⟨"Ids", true, "[]*" ++ "int64"⟩ =
        (sliceHelperName true true "int32" "int64" ++ "(" ++ ("src" ++ "." ++ "Ids") ++ ")",
          true)) ∧
    (∀ (sp dp sp1 dp1 : Bool) (S1 D1 : String), S1 ∈ primitiveTypes → D1 ∈ primitiveTypes →
      sliceHelperName sp dp "int32" "int64" = sliceHelperName sp1 dp1 S1 D1 →
        sp = sp1 ∧ dp = dp1 ∧ "int32" = S1 ∧ "int64" = D1) ∧
    primitiveTypes.map Title =
      ["Bool", "String", "Byte", "Uint", "Uint8", "Uint16", "Uint32", "Uint64",
       "Int", "Int8", "Int16", "Int32", "Int64", "Float32", "Float64"] ∧
    castDstField "src" ⟨"Ids", true, "[]int32"⟩ ⟨"Ids", true, "[]int64"⟩ =
      ("int32ArrToInt64Arr(" ++ ("src" ++ "." ++ "Ids") ++ ")", true)) :=
  ⟨by decide, slice_helper_naming "src" "Ids" "Ids" "int32" "int64" true true (by decide)
    (by decide)⟩

/-- C11 (what the code does for slices of different families). For
destination `[]bool` and source `[]string` `castDstField` reports `true`, with
the call `stringArrToBoolArr(src.X)`, although for destination `bool` and
source `string` it reports `false`; likewise `[]int` from `[]bool` against
`int` from `bool`. Slice compatibility does not follow element compatibility. -/
theorem slice_accepts_cross_family :
    castDstField "src" ⟨"X", true, "[]string"⟩ ⟨"X", true, "[]bool"⟩ =
      ("stringArrToBoolArr(src.X)", true) ∧
    castDstField "src" ⟨"X", false, "string"⟩ ⟨"X", false, "bool"⟩ = ("src.X", false) ∧
    castDstField "src" ⟨"X", true, "[]bool"⟩ ⟨"X", true, "[]int"⟩ =
      ("boolArrToIntArr(src.X)", true) ∧
    castDstField "src" ⟨"X", false, "bool"⟩ ⟨"X", false, "int"⟩ = ("src.X", false) := by
  decide

/-- C12 (everything outside the table is not possible). For type strings
outside the table (`outsideTable`) `castDstField` returns the bare source
reference and `false`. In particular it does so when the destination is a map
type and the source is neither that type nor the pointer to it, when the
source is a map type and the destination is another type, for `bool` against
`string`, for `bool` or `string` against every numeric type, in both
directions, and for the nested slices `[][]int` and `[][]int64`. The function
is total: no error is raised. -/
theorem outside_table_not_possible (a : String) (sf df : field)
    (h : outsideTable df.TypeStr sf.TypeStr) :
    castDstField a sf df = (a ++ "." ++ sf.Name, false) ∧
    (∀ (k v S b n n1 : String) (ps pd : Bool),
      S ≠ "map[" ++ k ++ "]" ++ v → S ≠ "*" ++ ("map[" ++ k ++ "]" ++ v) →
        castDstField b ⟨n, ps, S⟩ ⟨n1, pd, "map[" ++ k ++ "]" ++ v⟩ = (b ++ "." ++ n, false)) ∧
    (∀ (k v D b n n1 : String) (ps pd : Bool), D ≠ "map[" ++ k ++ "]" ++ v →
        castDstField b ⟨n, ps, "map[" ++ k ++ "]" ++ v⟩ ⟨n1, pd, D⟩ = (b ++ "." ++ n, false)) ∧
    (∀ (b n n1 : String) (ps pd : Bool),
      castDstField b ⟨n, ps, "string"⟩ ⟨n1, pd, "bool"⟩ = (b ++ "." ++ n, false) ∧
      castDstField b ⟨n, ps, "bool"⟩ ⟨n1, pd, "string"⟩ = (b ++ "." ++ n, false) ∧
      castDstField b ⟨n, ps, "[][]int64"⟩ ⟨n1, pd, "[][]int"⟩ = (b ++ "." ++ n, false) ∧
      castDstField b ⟨n, ps, "[][]int"⟩ ⟨n1, pd, "[][]int64"⟩ = (b ++ "." ++ n, false) ∧
      ∀ N ∈ numericTypes,
        castDstField b ⟨n, ps, N⟩ ⟨n1, pd, "bool"⟩ = (b ++ "." ++ n, false) ∧
        castDstField b ⟨n, ps, "bool"⟩ ⟨n1, pd, N⟩ = (b ++ "." ++ n, false) ∧
        castDstField b ⟨n, ps, N⟩ ⟨n1, pd, "string"⟩ = (b ++ "." ++ n, false) ∧
        castDstField b ⟨n, ps, "string"⟩ ⟨n1, pd, N⟩ = (b ++ "." ++ n, false)) := by
  refine ⟨castDstField_outsideTable a sf df h, ?_, ?_, ?_⟩
  · intro k v S b n n1 ps pd h1 h2
    exact castDstField_of_not_label b ⟨n, ps, S⟩ ⟨n1, pd, "map[" ++ k ++ "]" ++ v⟩ _
      (Or.inl rfl) (map_type_not_label k v) (fun e => h1 e.symm) h2
  · intro k v D b n n1 ps pd h1
    refine castDstField_of_not_label b ⟨n, ps, "map[" ++ k ++ "]" ++ v⟩ ⟨n1, pd, D⟩ _
      (Or.inr rfl) (map_type_not_label k v) h1 ?_
    intro e
    have e1 := congrArg (fun s : String => s.data.head?) e
    simp [String.data_append] at e1
  · intro b n n1 ps pd
    obtain ⟨c1, c2, c3, c4, c5⟩ := cross_family_outside
    refine ⟨castDstField_outsideTable b _ _ c1, castDstField_outsideTable b _ _ c2,
      castDstField_outsideTable b _ _ c4, castDstField_outsideTable b _ _ c5, ?_⟩
    intro N hN
    obtain ⟨d1, d2, d3, d4⟩ := c3 N hN
    exact ⟨castDstField_outsideTable b _ _ d1, castDstField_outsideTable b _ _ d2,
      castDstField_outsideTable b _ _ d3, castDstField_outsideTable b _ _ d4⟩

/-- Witness of C12: destination `map[string]string`, source `[]string`. -/
theorem outside_table_not_possible_witness :
    outsideTable "map[string]string" "[]string" ∧
    (castDstField "src" ⟨"Meta", true, "[]string"⟩ ⟨"Meta", true, "map[string]string"⟩ =
      ("src" ++ "." ++ "Meta", false) ∧
    (∀ (k v S b n n1 : String) (ps pd : Bool),
      S ≠ "map[" ++ k ++ "]" ++ v → S ≠ "*" ++ ("map[" ++ k ++ "]" ++ v) →
        castDstField b ⟨n, ps, S⟩ ⟨n1, pd, "map[" ++ k ++ "]" ++ v⟩ = (b ++ "." ++ n, false)) ∧
    (∀ (k v D b n n1 : String) (ps pd : Bool), D ≠ "map[" ++ k ++ "]" ++ v →
        castDstField b ⟨n, ps, "map[" ++ k ++ "]" ++ v⟩ ⟨n1, pd, D⟩ = (b ++ "." ++ n, false)) ∧
    (∀ (b n n1 : String) (ps pd : Bool),
      castDstField b ⟨n, ps, "string"⟩ ⟨n1, pd, "bool"⟩ = (b ++ "." ++ n, false) ∧
      castDstField b ⟨n, ps, "bool"⟩ ⟨n1, pd, "string"⟩ = (b ++ "." ++ n, false) ∧
      castDstField b ⟨n, ps, "[][]int64"⟩ ⟨n1, pd, "[][]int"⟩ = (b ++ "." ++ n, false) ∧
      castDstField b ⟨n, ps, "[][]int"⟩ ⟨n1, pd, "[][]int64"⟩ = (b ++ "." ++ n, false) ∧
      ∀ N ∈ numericTypes,
        castDstField b ⟨n, ps, N⟩ ⟨n1, pd, "bool"⟩ = (b ++ "." ++ n, false) ∧
        castDstField b ⟨n, ps, "bool"⟩ ⟨n1, pd, N⟩ = (b ++ "." ++ n, false) ∧
        castDstField b ⟨n, ps, N⟩ ⟨n1, pd, "string"⟩ = (b ++ "." ++ n, false) ∧
        castDstField b ⟨n, ps, "string"⟩ ⟨n1, pd, N⟩ = (b ++ "." ++ n, false))) :=
  ⟨by decide,
   outside_table_not_possible "src" ⟨"Meta", true, "[]string"⟩
    ⟨"Meta", true, "map[string]string"⟩ (by decide)⟩

/-- C13 (`searchUsedField` returns the longest match). The result is the
longest match of `castRow` among the fields (`isLongestMatch`): it is `none`
exactly when no field `f` makes `alias.f.Name` a substring of `castRow`;
otherwise it is a field of the struct whose `alias.Name` is a substring of
`castRow`, whose name is at least as long (in bytes) as that of every matching
field and longer than that of every matching field declared before it. When
`castRow` is exactly `alias.f.Name` for a field `f`, a field of that name is
returned (`f` itself when field names are distinct). The cases of
`Test_searchUsedField` evaluate as the test expects, fields `Fields`, `Field`
with `src.Field` giving `Field`. -/
theorem searchUsedField_longest_match (s : src) (castRow : String) :
    isLongestMatch s.Alias castRow s.Fields (searchUsedField s castRow) ∧
    (searchUsedField s castRow = none ↔
      ∀ f ∈ s.Fields, Contains castRow (s.Alias ++ "." ++ f.Name) = false) ∧
    (∀ r, searchUsedField s castRow = some r →
      r ∈ s.Fields ∧ Contains castRow (s.Alias ++ "." ++ r.Name) = true ∧
      (∀ g ∈ s.Fields, Contains castRow (s.Alias ++ "." ++ g.Name) = true →
        len g.Name ≤ len r.Name) ∧
      ∃ p1 p2, s.Fields = p1 ++ r :: p2 ∧
        ∀ g ∈ p1, Contains castRow (s.Alias ++ "." ++ g.Name) = true →
          len g.Name < len r.Name) ∧
    (∀ f ∈ s.Fields, castRow = s.Alias ++ "." ++ f.Name →
      ∃ r, searchUsedField s castRow = some r ∧ r.Name = f.Name ∧
        ((s.Fields.map field.Name).Nodup → r = f)) ∧
    searchUsedField testSrc "src.Field" = some ⟨"Field", true, "int"⟩ ∧
    searchUsedField ⟨"src", "", [⟨"Fields", true, "int"⟩, ⟨"Field", false, "bool"⟩]⟩
      "src.Field" = some ⟨"Field", false, "bool"⟩ ∧
    searchUsedField testSrc "nul" = none ∧
    searchUsedField testSrc "*src.Field" = some ⟨"Field", true, "int"⟩ ∧
    searchUsedField testSrc "int64(src.Field)" = some ⟨"Field", true, "int"⟩ ∧
    searchUsedField testSrc "int64(src.Fields)" = some ⟨"Fields", true, "int"⟩ := by
  have hL := isLongestMatch_searchUsedField s castRow
  refine ⟨hL, ?_, ?_, ?_, by decide, by decide, by decide, by decide, by decide, by decide⟩
  · constructor
    · intro h
      rw [h] at hL
      exact hL
    · intro h
      cases hr : searchUsedField s castRow with
      | none => rfl
      | some r =>
        rw [hr] at hL
        obtain ⟨p1, p2, hsplit, hm, _, _⟩ := hL
        have hmem : r ∈ s.Fields := by
          rw [hsplit]
          exact List.mem_append_right _ (List.mem_cons_self _ _)
        rw [h r hmem] at hm
        cases hm
  · intro r hr
    rw [hr] at hL
    obtain ⟨p1, p2, hsplit, hm, h1, h2⟩ := hL
    refine ⟨?_, hm, ?_, p1, p2, hsplit, h1⟩
    · rw [hsplit]
      exact List.mem_append_right _ (List.mem_cons_self _ _)
    · intro g hg hgm
      rw [hsplit] at hg
      rcases List.mem_append.mp hg with hg | hg
      · exact Nat.le_of_lt (h1 g hg hgm)
      · rcases List.mem_cons.mp hg with hg | hg
        · exact Nat.le_of_eq (by rw [hg])
        · exact h2 g hg hgm
  · intro f hf hexact
    have hsome : ∃ r, s.Fields.find?
        (fun f => decide (castRow = s.Alias ++ "." ++ f.Name)) = some r := by
      cases hfind : s.Fields.find? (fun f => decide (castRow = s.Alias ++ "." ++ f.Name)) with
      | some r => exact ⟨r, rfl⟩
      | none =>
        rw [List.find?_eq_none] at hfind
        exact absurd (by simpa using hexact) (hfind f hf)
    obtain ⟨r, hfind⟩ := hsome
    have hres : searchUsedField s castRow = some r := by
      simp only [searchUsedField, hfind]
    have hp := (List.find?_eq_some.mp hfind).1
    have hr : castRow = s.Alias ++ "." ++ r.Name := by simpa using hp
    have hname : r.Name = f.Name := by
      have e := hr.symm.trans hexact
      have e1 := congrArg String.data e
      simp only [String.data_append] at e1
      exact String.ext (List.append_cancel_left e1)
    refine ⟨r, hres, hname, ?_⟩
    intro hnd
    have hrmem : r ∈ s.Fields := List.mem_of_find?_eq_some hfind
    exact List.inj_on_of_nodup_map hnd hrmem hf hname

/-- C14 (no alias, no provenance). For a well-formed relation with
destination field `X` whose trimmed expression `e` contains none of the source
aliases as a substring, the rule built is
`{DstFieldName: X, CastStr: e, Casted: true}` with `SrcAlias`, `SrcShortPath`,
`SrcFieldName` empty and `SrcFieldPtr = false`, and the relation loop stores
it under `X`. -/
theorem no_alias_no_provenance (srcList : List src) (m : RuleMap) (rel lhs rhs a X e : String)
    (hsplit : Split rel ':' = [lhs, rhs]) (hrel : parseRelation rel = .ok (a, X, e))
    (hno : ∀ s ∈ srcList, Contains e s.Alias = false) :
    e = TrimSpace rhs ∧
    relationRule srcList X e = ⟨X, "", "", "", false, e, true⟩ ∧
    applyRelations srcList m [rel] = .ok (mapSet m X ⟨X, "", "", "", false, e, true⟩) ∧
    mapGet (mapSet m X ⟨X, "", "", "", false, e, true⟩) X =
      some ⟨X, "", "", "", false, e, true⟩ := by
  have he : e = TrimSpace rhs := by
    obtain ⟨a', d', h'⟩ := parseRelation_ok_of_split rel lhs rhs hsplit
    rw [hrel] at h'
    injection h' with h'
    exact (Prod.mk.inj (Prod.mk.inj h').2).2
  have hr : relationRule srcList X e = ⟨X, "", "", "", false, e, true⟩ := by
    simp [relationRule, searchUsedSrc_none srcList e hno, FieldMappingRule.zero]
  refine ⟨he, hr, ?_, mapGet_mapSet_self _ _ _⟩
  simp [applyRelations, hrel, hr]

/-- Witness of C14: relation `Total: a.Count + b.Extra` with sources of
the aliases `src` and `first`. -/
theorem no_alias_no_provenance_witness :
    (Split "Total: a.Count + b.Extra" ':' = ["Total", " a.Count + b.Extra"] ∧
      parseRelation "Total: a.Count + b.Extra" = .ok ("", "Total", "a.Count + b.Extra") ∧
      ∀ s ∈ [sampleSrc, flagFirst], Contains "a.Count + b.Extra" s.Alias = false) ∧
    ("a.Count + b.Extra" = TrimSpace " a.Count + b.Extra" ∧
    relationRule [sampleSrc, flagFirst] "Total" "a.Count + b.Extra" =
      ⟨"Total", "", "", "", false, "a.Count + b.Extra", true⟩ ∧
    applyRelations [sampleSrc, flagFirst] [] ["Total: a.Count + b.Extra"] =
      .ok (mapSet [] "Total" ⟨"Total", "", "", "", false, "a.Count + b.Extra", true⟩) ∧
    mapGet (mapSet [] "Total" ⟨"Total", "", "", "", false, "a.Count + b.Extra", true⟩) "Total" =
      some ⟨"Total", "", "", "", false, "a.Count + b.Extra", true⟩) :=
  ⟨⟨by decide, rfl, by decide⟩,
   no_alias_no_provenance [sampleSrc, flagFirst] [] "Total: a.Count + b.Extra" "Total"
    " a.Count + b.Extra" "" "Total" "a.Count + b.Extra" (by decide) rfl (by decide)⟩

/-- C15 (what the generated list mapper counts). For source slices of the
lengths 0 and 2 the count is 2, greater than the first length; for 3, 0, 5 it
is 5: after a source of length 0 the test `count == 0` takes the next length.
When all lengths are positive the count is a member of the list and at most
every length, the minimum. -/
theorem list_mapper_count_after_empty_source :
    listMapperCount [0, 2] = 2 ∧ ¬ (∀ l ∈ [0, 2], listMapperCount [0, 2] ≤ l) ∧
    listMapperCount [3, 0, 5] = 5 ∧
    ∀ lens : List Nat, lens ≠ [] → (∀ l ∈ lens, 0 < l) →
      listMapperCount lens ∈ lens ∧ ∀ l ∈ lens, listMapperCount lens ≤ l :=
  ⟨by decide, by decide, by decide, listMapperCount_of_pos⟩

/-- C16 (helpers the matcher names and the template does not declare). For
destination `[]int64` and source `[]int32` `castDstField` returns `true` with
the call `int32ArrToInt64Arr(src.Ids)`; no function the template declares is
named `int32ArrToInt64Arr`, nor does the name of any declared function occur
in the expression. The same holds for `intArrToInt64Arr` (`[]int64` from
`[]int`) and for the pointer constructor `int32Ptr` (`*int32` from `int32`). -/
theorem helper_not_generated :
    castDstField "src" ⟨"Ids", true, "[]int32"⟩ ⟨"Ids", true, "[]int64"⟩ =
      ("int32ArrToInt64Arr(src.Ids)", true) ∧
    "int32ArrToInt64Arr" ∉ emittedHelperNames ∧
    (∀ h ∈ emittedHelperNames, Contains "int32ArrToInt64Arr(src.Ids)" h = false) ∧
    castDstField "src" ⟨"Ids", true, "[]int"⟩ ⟨"Ids", true, "[]int64"⟩ =
      ("intArrToInt64Arr(src.Ids)", true) ∧
    "intArrToInt64Arr" ∉ emittedHelperNames ∧
    castDstField "src" ⟨"N", false, "int32"⟩ ⟨"N", true, "*int32"⟩ =
      ("int32Ptr(int32(src.N))", true) ∧
    "int32Ptr" ∉ emittedHelperNames := by
  decide

/-- C17 (what the code does for the order of the plan). For destination
`{ID int64; Tags []string}` and source `{Tags []string; ID int}` the loops of
`params` leave the rule map with the two entries `ID` and `Tags`, and the
slice `FieldMappingRules` is built by ranging over that map, in the iteration
order of a Go map: both `[ID rule, Tags rule]` and `[Tags rule, ID rule]` are
possible results. The second is not in the declaration order of the
destination fields (`ID`, `Tags`), and the possible results of runs on this
one configuration are not all equal. -/
theorem plan_order_not_reproducible :
    fieldMappingRuleMap sampleDst [sampleSrc] [] =
      .ok [("ID", sampleIdRule), ("Tags", sampleTagsRule)] ∧
    isFieldMappingRules sampleDst [sampleSrc] [] [sampleIdRule, sampleTagsRule] ∧
    isFieldMappingRules sampleDst [sampleSrc] [] [sampleTagsRule, sampleIdRule] ∧
    sampleDst.Fields.map field.Name = ["ID", "Tags"] ∧
    [sampleTagsRule, sampleIdRule].map FieldMappingRule.DstFieldName = ["Tags", "ID"] ∧
    ¬ (∀ p1 p2, isFieldMappingRules sampleDst [sampleSrc] [] p1 →
        isFieldMappingRules sampleDst [sampleSrc] [] p2 → p1 = p2) := by
  have h1 : isFieldMappingRules sampleDst [sampleSrc] [] [sampleIdRule, sampleTagsRule] := by
    decide
  have h2 : isFieldMappingRules sampleDst [sampleSrc] [] [sampleTagsRule, sampleIdRule] := by
    decide
  refine ⟨rfl, h1, h2, by decide, by decide, ?_⟩
  intro h
  exact absurd (h _ _ h1 h2) (by decide)

/-- Counterexample to C18 as stated: destination `{ID int64}` with the
sources `a{ID int}` and `b{ID string}`. `castDstField` accepts the field of
`a` and rejects that of `b`, and the rule stored for `ID` after the automatic
loop is the one of `b` with `Casted = false`: no rule with the alias `a` and
`Casted = true` is stored. -/
theorem rejected_later_source_counterexample :
    (castDstField "a" ⟨"ID", false, "int"⟩ ⟨"ID", false, "int64"⟩).2 = true ∧
    (castDstField "b" ⟨"ID", false, "string"⟩ ⟨"ID", false, "int64"⟩).2 = false ∧
    mapGet (resolveAuto idDst [idIntSrc, idStringSrc]) "ID" =
      some ⟨"ID", "b", "B", "ID", false, "b.ID", false⟩ ∧
    ¬ ∃ r, mapGet (resolveAuto idDst [idIntSrc, idStringSrc]) "ID" = some r ∧
        r.SrcAlias = "a" ∧ r.Casted = true := by
  decide

/-- C18, amended (a rejected later source overwrites). With field names
pairwise distinct within the destination and within `s2`: when an earlier
source `s1` has a same-named field that `castDstField` accepts and a later
source `s2`, the last with a field of that name, has one that `castDstField`
rejects, the rule stored after the automatic loop derives from `s2` (its
alias, field and expression), has `Casted = false`, and is not the rule of
`s1`. -/
theorem rejected_later_source_overwrites (dst : src) (before mid after : List src)
    (s1 s2 : src) (d f1 f2 : field)
    (hd : d ∈ dst.Fields) (hdn : (dst.Fields.map field.Name).Nodup)
    (hf1 : f1 ∈ s1.Fields) (hn1 : f1.Name = d.Name)
    (hacc : (castDstField s1.Alias f1 d).2 = true)
    (hf2 : f2 ∈ s2.Fields) (hsn2 : (s2.Fields.map field.Name).Nodup) (hn2 : f2.Name = d.Name)
    (hrej : (castDstField s2.Alias f2 d).2 = false)
    (hafter : ∀ t ∈ after, ∀ g ∈ t.Fields, g.Name ≠ d.Name) :
    ∃ r, mapGet (resolveAuto dst (before ++ s1 :: (mid ++ s2 :: after))) d.Name = some r ∧
      r.SrcAlias = s2.Alias ∧ r.SrcFieldName = f2.Name ∧
      r.CastStr = (castDstField s2.Alias f2 d).1 ∧ r.Casted = false ∧
      r ≠ autoRule s1 f1 d := by
  have _ := hf1
  have _ := hn1
  obtain ⟨dpre, dpost, hdsplit, hdpost⟩ := split_of_nodup_names dst.Fields d hd hdn
  obtain ⟨pre, post, hssplit, hpost⟩ := split_of_nodup_names s2.Fields f2 hf2 hsn2
  have hl : before ++ s1 :: (mid ++ s2 :: after) = (before ++ s1 :: mid) ++ s2 :: after := by
    simp
  refine ⟨autoRule s2 f2 d, ?_, rfl, rfl, rfl, hrej, ?_⟩
  · rw [hl]
    exact mapGet_resolveAuto_last dst dpre dpost d hdsplit hdpost (before ++ s1 :: mid) after s2
      pre post f2 hssplit hn2 (fun g hg => hn2 ▸ hpost g hg) hafter
  · intro e
    have e2 := congrArg FieldMappingRule.Casted e
    simp only [autoRule, hacc, hrej] at e2
    cases e2

/-- Witness of C18: destination `{ID int64}`, sources `a{ID int}` and
`b{ID string}` among sources without a field `ID`. -/
theorem rejected_later_source_overwrites_witness :
    ((⟨"ID", false, "int64"⟩ : field) ∈ idDst.Fields ∧
      (idDst.Fields.map field.Name).Nodup ∧
      (⟨"ID", false, "int"⟩ : field) ∈ idIntSrc.Fields ∧
      (castDstField idIntSrc.Alias ⟨"ID", false, "int"⟩ ⟨"ID", false, "int64"⟩).2 = true ∧
      (⟨"ID", false, "string"⟩ : field) ∈ idStringSrc.Fields ∧
      (idStringSrc.Fields.map field.Name).Nodup ∧
      (castDstField idStringSrc.Alias ⟨"ID", false, "string"⟩ ⟨"ID", false, "int64"⟩).2 = false ∧
      ∀ t ∈ [flagFirst], ∀ g ∈ t.Fields, g.Name ≠ "ID") ∧
    ∃ r, mapGet (resolveAuto idDst
        ([sampleSrc] ++ idIntSrc :: ([flagSecond] ++ idStringSrc :: [flagFirst]))) "ID" = some r ∧
      r.SrcAlias = "b" ∧ r.SrcFieldName = "ID" ∧
      r.CastStr = (castDstField "b" ⟨"ID", false, "string"⟩ ⟨"ID", false, "int64"⟩).1 ∧
      r.Casted = false ∧ r ≠ autoRule idIntSrc ⟨"ID", false, "int"⟩ ⟨"ID", false, "int64"⟩ :=
  ⟨by decide,
   rejected_later_source_overwrites idDst [sampleSrc] [flagSecond] [flagFirst] idIntSrc
    idStringSrc ⟨"ID", false, "int64"⟩ ⟨"ID", false, "int"⟩ ⟨"ID", false, "string"⟩
    (by decide) (by decide) (by decide) rfl (by decide) (by decide) (by decide) rfl (by decide)
    (by decide)⟩

/-- C19 (at most one rule per destination field). For every destination,
source list and list of well-formed relations a `FieldMappingRules` slice
exists, and in every possible one the destination field names of the entries
are pairwise distinct. -/
theorem one_rule_per_destination_field (dst : src) (srcList : List src)
    (relations : List String) (hwf : ∀ r ∈ relations, r.data.count ':' = 1) :
    (∃ plan, isFieldMappingRules dst srcList relations plan) ∧
    ∀ plan, isFieldMappingRules dst srcList relations plan →
      (plan.map FieldMappingRule.DstFieldName).Nodup := by
  obtain ⟨m, hm⟩ := applyRelations_ok srcList (resolveAuto dst srcList) relations hwf
  refine ⟨⟨_, isFieldMappingRules_mapValues dst srcList relations m hm⟩, ?_⟩
  intro plan hplan
  unfold isFieldMappingRules at hplan
  have hm' : fieldMappingRuleMap dst srcList relations = .ok m := hm
  rw [hm'] at hplan
  have hperm : plan.Perm (mapValues m) := hplan
  have hwfm : RuleMapWF m :=
    RuleMapWF_applyRelations srcList _ m relations (RuleMapWF_resolveAuto dst srcList) hm
  rw [(hperm.map FieldMappingRule.DstFieldName).nodup_iff, names_mapValues m hwfm]
  exact hwfm.1

/-- Witness of C19: a mapper with two sources that both have a field `ID`
and two relations for `ID`. -/
theorem one_rule_per_destination_field_witness :
    (∀ r ∈ ["ID: 1", "Tags: nil", "dst.ID : int64(src.ID) + 1 ", "Name: src.Tags[0]"],
      r.data.count ':' = 1) ∧
    ((∃ plan, isFieldMappingRules sampleDst [sampleSrc, idIntSrc]
        ["ID: 1", "Tags: nil", "dst.ID : int64(src.ID) + 1 ", "Name: src.Tags[0]"] plan) ∧
    ∀ plan, isFieldMappingRules sampleDst [sampleSrc, idIntSrc]
        ["ID: 1", "Tags: nil", "dst.ID : int64(src.ID) + 1 ", "Name: src.Tags[0]"] plan →
      (plan.map FieldMappingRule.DstFieldName).Nodup) :=
  ⟨by decide,
   one_rule_per_destination_field sampleDst [sampleSrc, idIntSrc]
    ["ID: 1", "Tags: nil", "dst.ID : int64(src.ID) + 1 ", "Name: src.Tags[0]"] (by decide)⟩

/-- Counterexample to C20 as stated: the relation `a.b.X: e` has exactly
one `:`, and `parseRelation` returns the destination field `a.b.X`, which
contains a `.` and is not the last segment `X`. -/
theorem dotted_destination_counterexample :
    ("a.b.X: e" : String).data.count ':' = 1 ∧
    parseRelation "a.b.X: e" = .ok ("", "a.b.X", "e") ∧
    '.' ∈ ("a.b.X" : String).data ∧
    (Split "a.b.X" '.').getLast? = some "X" := by
  refine ⟨by decide, rfl, by decide, by decide⟩

/-- C20, amended (the destination field of a relation). A relation with
exactly one `:` is `lhs:rhs`, and `srcCastRow` is the trimmed `rhs`. When the
trimmed `lhs` has exactly one `.`, it is `p.q`, `dstAlias` is the trimmed `p`
and `dstField` the trimmed `q`, which contains no `.`; when it has no `.` or
more than one, `dstField` is the whole trimmed `lhs` and `dstAlias` is
empty. -/
theorem parseRelation_destination_field (relation : String)
    (h : relation.data.count ':' = 1) :
    ∃ lhs rhs, relation.data = lhs.data ++ ':' :: rhs.data ∧ ':' ∉ lhs.data ∧ ':' ∉ rhs.data ∧
      ((TrimSpace lhs).data.count '.' = 1 →
        ∃ p q, (TrimSpace lhs).data = p.data ++ '.' :: q.data ∧ '.' ∉ p.data ∧
          parseRelation relation = .ok (TrimSpace p, TrimSpace q, TrimSpace rhs) ∧
          '.' ∉ (TrimSpace q).data) ∧
      ((TrimSpace lhs).data.count '.' ≠ 1 →
        parseRelation relation = .ok ("", TrimSpace lhs, TrimSpace rhs)) := by
  obtain ⟨lhs, rhs, hsplit, hdata, hl, hr⟩ := Split_of_count_one relation ':' h
  obtain ⟨h1, h2⟩ := parseRelation_of_split relation lhs rhs hsplit
  refine ⟨lhs, rhs, hdata, hl, hr, ?_, ?_⟩
  · intro hc
    obtain ⟨p, q, hpq, hd, hp, hq⟩ := Split_of_count_one (TrimSpace lhs) '.' hc
    refine ⟨p, q, hd, hp, h1 p q hpq, ?_⟩
    intro hmem
    exact hq (mem_of_mem_trimChars isSpace q.data '.' hmem)
  · intro hc
    apply h2
    rw [length_Split]
    omega

/-- Witness of C20: the relation ` dst . X : e . f `. -/
theorem parseRelation_destination_field_witness :
    ((" dst . X : e . f " : String).data.count ':' = 1 ∧
      parseRelation " dst . X : e . f " = .ok ("dst", "X", "e . f")) ∧
    ∃ lhs rhs, (" dst . X : e . f " : String).data = lhs.data ++ ':' :: rhs.data ∧
      ':' ∉ lhs.data ∧ ':' ∉ rhs.data ∧
      ((TrimSpace lhs).data.count '.' = 1 →
        ∃ p q, (TrimSpace lhs).data = p.data ++ '.' :: q.data ∧ '.' ∉ p.data ∧
          parseRelation " dst . X : e . f " = .ok (TrimSpace p, TrimSpace q, TrimSpace rhs) ∧
          '.' ∉ (TrimSpace q).data) ∧
      ((TrimSpace lhs).data.count '.' ≠ 1 →
        parseRelation " dst . X : e . f " = .ok ("", TrimSpace lhs, TrimSpace rhs)) :=
  ⟨⟨by decide, rfl⟩, parseRelation_destination_field " dst . X : e . f " (by decide)⟩

/-- Counterexample to C22 as stated: sources with the aliases `a` and
`data` in this order, relation expression `data.Name` for the pointer-typed
field `Name` of `data`. The alias `a` occurs in the expression, so
`searchUsedSrc` takes the first source, none of whose fields is referenced:
the rule has no provenance and `SrcFieldPtr = false`. -/
theorem plain_reference_counterexample :
    (⟨"Name", true, "*string"⟩ : field) ∈ dataSrc.Fields ∧
    dataSrc ∈ [idIntSrc, dataSrc] ∧
    "data.Name" = dataSrc.Alias ++ "." ++ "Name" ∧
    Contains "data.Name" idIntSrc.Alias = true ∧
    relationRule [idIntSrc, dataSrc] "Name" "data.Name" =
      ⟨"Name", "", "", "", false, "data.Name", true⟩ := by
  decide

/-- C22, amended (provenance of a plain field reference). When the
expression is exactly `alias.field` for a source `s` of the list and a field
`f` of `s`, the field names of `s` are pairwise distinct, and the alias of no
source before `s` occurs in the expression, the rule built for the relation
records `SrcAlias = s.Alias`, `SrcShortPath`, `SrcFieldName = f.Name` and
`SrcFieldPtr = f.Ptr`, with the expression as `CastStr` and
`Casted = true`. -/
theorem plain_reference_provenance (before after : List src) (s : src) (f : field)
    (X : String) (hf : f ∈ s.Fields) (hnd : (s.Fields.map field.Name).Nodup)
    (hbefore : ∀ t ∈ before, Contains (s.Alias ++ "." ++ f.Name) t.Alias = false) :
    relationRule (before ++ s :: after) X (s.Alias ++ "." ++ f.Name) =
      ⟨X, s.Alias, s.ShortPath, f.Name, f.Ptr, s.Alias ++ "." ++ f.Name, true⟩ := by
  have hs : Contains (s.Alias ++ "." ++ f.Name) s.Alias = true := by
    rw [String.append_assoc]
    exact Contains_append_left _ _
  have hsrc := searchUsedSrc_first before after s _ hbefore hs
  obtain ⟨r, hr, _, hrf⟩ := searchUsedField_exact s f hf
  have e := hrf hnd
  subst e
  simp [relationRule, hsrc, hr, FieldMappingRule.zero]

/-- Witness of C22: the source `data` after two sources whose aliases do
not occur in `data.Name`. -/
theorem plain_reference_provenance_witness :
    ((⟨"Name", true, "*string"⟩ : field) ∈ dataSrc.Fields ∧
      (dataSrc.Fields.map field.Name).Nodup ∧
      ∀ t ∈ [sampleSrc, flagFirst], Contains (dataSrc.Alias ++ "." ++ "Name") t.Alias = false) ∧
    relationRule ([sampleSrc, flagFirst] ++ dataSrc :: [idIntSrc]) "Label"
        (dataSrc.Alias ++ "." ++ "Name") =
      ⟨"Label", "data", "model.Data", "Name", true, dataSrc.Alias ++ "." ++ "Name", true⟩ :=
  ⟨by decide,
   plain_reference_provenance [sampleSrc, flagFirst] [idIntSrc] dataSrc ⟨"Name", true, "*string"⟩
    "Label" (by decide) (by decide) (by decide)⟩

/-- C23 (what the code does for package-qualified types). The selectors
`models.User` and `models.Account` are different type expressions with the
same type string `models`, and for a destination field of the first type and a
source field of the second `castDstField` takes the identical-type
pass-through `src.Owner`; likewise `*time.Time` has the type string of the
pointer to an identifier `time`. -/
theorem selector_type_strings_coincide :
    typeStrValue (.SelectorExpr (.Ident "models") "User") = "models" ∧
    typeStrValue (.SelectorExpr (.Ident "models") "Account") = "models" ∧
    astExpr.SelectorExpr (.Ident "models") "User" ≠ .SelectorExpr (.Ident "models") "Account" ∧
    castDstField "src" (fieldOf ⟨"Owner", "", .SelectorExpr (.Ident "models") "Account"⟩)
        (fieldOf ⟨"Owner", "", .SelectorExpr (.Ident "models") "User"⟩) =
      ("src.Owner", true) ∧
    typeStrValue (.StarExpr (.SelectorExpr (.Ident "time") "Time")) =
      typeStrValue (.StarExpr (.Ident "time")) := by
  decide

end Mapstruct
